import Mathlib

/-!
# Verification of the hunk transformation engine of `git_stage.py`

This file gives a shallow embedding of the pure transformation core of
`git_stage.py` (the hunk transformation engine): the change grouper
`split_into_change_groups`, the edit-format codec `format_updates_file` /
`parse_updates_file`, the conflict validator `validate_hunks`, the sorter
`sort_hunks`, and the patch replayer `apply_hunks`.

Python strings are modelled by Lean `String` (a wrapper around `List Char`);
Python `str.splitlines(keepends=True)`, `str.rstrip("\n")`, `str.strip()`,
`str.startswith` and the two regular expressions used by the parser are
modelled by explicit functions below.  Python list slicing and slice
assignment (including negative-index normalisation) are modelled by
`pyGetSlice` / `pySetSlice`.  Python exceptions (`ValueError`) raised by the
validator and the replayer are modelled by structured error values carrying
exactly the data interpolated into the Python error message.

Line numbers (`old_line`, `old_start`, ...) are natural numbers: every
producer in the program obtains them from regex digit groups or from hunk
headers, so they are non-negative.
-/

/-! ## Python string primitives -/

/-- The characters at which Python `str.splitlines` breaks a line:
`\n`, `\r`, `\v`, `\f`, `\x1c`, `\x1d`, `\x1e`, `\x85`, ` `, ` `
(`\r\n` is treated as a single break by `slAux` below). -/
def isLineBreakCh (c : Char) : Bool :=
  c.toNat = 10 || c.toNat = 13 || c.toNat = 11 || c.toNat = 12 ||
  c.toNat = 0x1c || c.toNat = 0x1d || c.toNat = 0x1e ||
  c.toNat = 0x85 || c.toNat = 0x2028 || c.toNat = 0x2029

/-- The characters stripped by Python `str.strip()` and matched by the regex
class `\s` (Unicode whitespace). -/
def isPySpaceCh (c : Char) : Bool :=
  c.toNat = 32 || (9 ≤ c.toNat && c.toNat ≤ 13) ||
  c.toNat = 0x1c || c.toNat = 0x1d || c.toNat = 0x1e || c.toNat = 0x1f ||
  c.toNat = 0x85 || c.toNat = 0xa0 || c.toNat = 0x1680 ||
  (0x2000 ≤ c.toNat && c.toNat ≤ 0x200a) ||
  c.toNat = 0x2028 || c.toNat = 0x2029 || c.toNat = 0x202f ||
  c.toNat = 0x205f || c.toNat = 0x3000

/-- ASCII decimal digit, the characters matched by the regex class `\d`
on the inputs this program produces. -/
def isDigitCh (c : Char) : Bool :=
  48 ≤ c.toNat && c.toNat ≤ 57

/-- Worker for `pySplitlines`: split a character list after every line-break
character, merging `\r\n` into a single break, keeping the break characters
(Python `keepends=True`). -/
def slAux : List Char → List Char → List (List Char)
  | [], acc => if acc.isEmpty then [] else [acc.reverse]
  | '\r' :: '\n' :: rest, acc => (acc.reverse ++ ['\r', '\n']) :: slAux rest []
  | c :: rest, acc =>
    if isLineBreakCh c then (acc.reverse ++ [c]) :: slAux rest []
    else slAux rest (c :: acc)

/-- Python `s.splitlines(keepends=True)`. -/
def pySplitlines (s : String) : List String :=
  (slAux s.data []).map String.mk

/-- Python `s.rstrip("\n")`: remove all trailing `\n` characters. -/
def rstripNl (s : String) : String :=
  String.mk ((s.data.reverse.dropWhile (fun c => c = '\n')).reverse)

/-- Python `s.strip()`: remove leading and trailing whitespace. -/
def pyStrip (s : String) : String :=
  String.mk (((s.data.dropWhile isPySpaceCh).reverse.dropWhile isPySpaceCh).reverse)

/-- Python `s.startswith(p)`. -/
def strStarts (s p : String) : Bool :=
  p.data.isPrefixOf s.data

/-- Value of a digit string read left to right in base 10 (the effect of
Python `int` on a string of digits). -/
def digitsToNat (l : List Char) : Nat :=
  l.foldl (fun n c => n * 10 + (c.toNat - 48)) 0

/-- The ASCII digit character for `n < 10` (last case absorbs `9`). -/
def digitChar (n : Nat) : Char :=
  match n with
  | 0 => '0' | 1 => '1' | 2 => '2' | 3 => '3' | 4 => '4'
  | 5 => '5' | 6 => '6' | 7 => '7' | 8 => '8' | _ => '9'

/-- Fuel-driven construction of the decimal digit list, least significant
digit pushed first (structural, so that it evaluates inside the kernel). -/
def natDigitsCore : Nat → Nat → List Char → List Char
  | 0, _, ds => ds
  | fuel + 1, n, ds =>
    if n < 10 then digitChar n :: ds
    else natDigitsCore fuel (n / 10) (digitChar (n % 10) :: ds)

/-- Decimal digit list of a natural number, most significant first
(the effect of Python `f"{n}"` on a non-negative int). -/
def natDigits (n : Nat) : List Char := natDigitsCore (n + 1) n []

/-- Recursive reference form of `natDigits`, used in proofs. -/
def natDigitsW (n : Nat) : List Char :=
  if _h10 : n < 10 then [digitChar n]
  else natDigitsW (n / 10) ++ [digitChar (n % 10)]
  termination_by n
  decreasing_by exact Nat.div_lt_self (by omega) (by omega)

/-- Decimal rendering of a natural number as a string. -/
def natDecStr (n : Nat) : String := String.mk (natDigits n)

/-- Effect of `re.match(r"^file:\s*(.+)$", line)` followed by
`match.group(1).strip()`, on a line with no internal newline (the parser
only applies it to `splitlines` output stripped of its trailing newline,
which can contain no `\n` at all).  Because `\s*` is greedy, `.` matches
any non-`\n` character, and the caller strips the group, the combined
effect is: fail when nothing follows `file:`, otherwise strip the
remainder. -/
def matchFileHeader (s : String) : Option String :=
  match s.data with
  | 'f' :: 'i' :: 'l' :: 'e' :: ':' :: rest =>
    if rest.isEmpty || rest.contains '\n' then none
    else some (pyStrip (String.mk rest))
  | _ => none

/-- Effect of `re.match(r"^@@old\s+(\d+)$", line)` followed by
`int(match.group(1))`: after the literal `@@old`, one or more whitespace
characters, then digits up to the end of the line.  Since `\s` and `\d`
are disjoint, the greedy split into a whitespace block followed by a digit
block is exact. -/
def matchOldHeader (s : String) : Option Nat :=
  match s.data with
  | '@' :: '@' :: 'o' :: 'l' :: 'd' :: rest =>
    let ws := rest.takeWhile isPySpaceCh
    let ds := rest.dropWhile isPySpaceCh
    if ws.isEmpty || ds.isEmpty || !ds.all isDigitCh then none
    else some (digitsToNat ds)
  | _ => none

/-! ## Python list slicing -/

/-- Normalisation of a Python slice index against a list of length `len`:
negative indices count from the end and clamp at `0`; non-negative indices
clamp at `len`. -/
def pyNorm (len : Nat) (i : Int) : Nat :=
  if i < 0 then ((len : Int) + i).toNat else min len i.toNat

/-- Python `l[a:b]` for lists. -/
def pyGetSlice (l : List String) (a b : Int) : List String :=
  let a' := pyNorm l.length a
  let b' := pyNorm l.length b
  (l.drop a').take (b' - a')

/-- Python slice assignment `l[a:b] = x` for lists (the value of `l`
afterwards). -/
def pySetSlice (l : List String) (a b : Int) (x : List String) : List String :=
  let a' := pyNorm l.length a
  let b' := max a' (pyNorm l.length b)
  l.take a' ++ x ++ l.drop b'

/-! ## Data types (from the `@dataclass` definitions) -/

/-- A single `@@` hunk from a unified diff. -/
structure Hunk where
  old_start : Nat
  old_count : Nat
  new_start : Nat
  new_count : Nat
  lines : List String
deriving DecidableEq

/-- A maximal run of `-`/`+` lines within a hunk. -/
structure ChangeGroup where
  old_line : Nat
  old_lines : List String
  new_lines : List String
deriving DecidableEq

/-- A single `@@old`/`@@new`/`@@end` block from an updates file. -/
structure UpdateHunk where
  old_line : Nat
  old_lines : List String
  new_lines : List String
deriving DecidableEq

/-! ## `split_into_change_groups` -/

/-- Loop state of `split_into_change_groups`: the groups emitted so far,
the buffered removed/added lines of the open group, the recorded
`old_line` of the open group, and the base-file cursor
(`current_old_line`). -/
structure GState where
  groups : List ChangeGroup
  curOld : List String
  curNew : List String
  oldLine : Nat
  cursor : Nat
deriving DecidableEq

/-- One iteration of the `for line in hunk.lines` loop of
`split_into_change_groups`. -/
def groupStep (st : GState) (line : String) : GState :=
  if strStarts line " " then
    if st.curOld.isEmpty && st.curNew.isEmpty then
      { st with cursor := st.cursor + 1 }
    else
      { groups := st.groups ++ [⟨st.oldLine, st.curOld, st.curNew⟩], curOld := [], curNew := [], oldLine := 0, cursor := st.cursor + 1 }
  else if strStarts line "-" then
    if st.curOld.isEmpty && st.curNew.isEmpty then
      { st with oldLine := st.cursor, curOld := st.curOld ++ [line.drop 1], cursor := st.cursor + 1 }
    else
      { st with curOld := st.curOld ++ [line.drop 1], cursor := st.cursor + 1 }
  else if strStarts line "+" then
    { st with curNew := st.curNew ++ [line.drop 1] }
  else st

/-- `split_into_change_groups`: split a `Hunk` into maximal runs of
`-`/`+` lines uninterrupted by context. -/
def split_into_change_groups (hunk : Hunk) : List ChangeGroup :=
  let st := hunk.lines.foldl groupStep ⟨[], [], [], 0, hunk.old_start⟩
  if st.curOld.isEmpty && st.curNew.isEmpty then st.groups
  else st.groups ++ [⟨st.oldLine, st.curOld, st.curNew⟩]

/-! ## `parse_updates_file` -/

/-- Parsing mode of the hunk-collecting loop of `parse_updates_file`:
scanning for `@@old` (`top`), collecting old lines until `@@new`
(`inOld`), or collecting new lines until `@@end` (`inNew`). -/
inductive PMode where
  | top : PMode
  | inOld : Nat → List String → PMode
  | inNew : Nat → List String → List String → PMode
deriving DecidableEq

/-- One iteration of the hunk-collecting loop of `parse_updates_file`
(the `while i < len(lines)` loop after the file header), as a state
machine over the line stream. -/
def parseStep (st : List UpdateHunk × PMode) (line : String) :
    List UpdateHunk × PMode :=
  match st.2 with
  | .top =>
    match matchOldHeader (rstripNl line) with
    | some n => (st.1, .inOld n [])
    | none => (st.1, .top)
  | .inOld n olds =>
    if rstripNl line = "@@new" then (st.1, .inNew n olds [])
    else (st.1, .inOld n (olds ++ [line]))
  | .inNew n olds news =>
    if rstripNl line = "@@end" then (st.1 ++ [⟨n, olds, news⟩], .top)
    else (st.1, .inNew n olds (news ++ [line]))

/-- The hunk-collecting loop of `parse_updates_file`: a block still open at
end of input is emitted with whatever was collected, exactly as the Python
inner `while` loops running off the end of `lines`. -/
def parseHunks (lines : List String) : List UpdateHunk :=
  match lines.foldl parseStep ([], .top) with
  | (hs, .top) => hs
  | (hs, .inOld n olds) => hs ++ [⟨n, olds, []⟩]
  | (hs, .inNew n olds news) => hs ++ [⟨n, olds, news⟩]

/-- The file-header loop of `parse_updates_file`: scan for the first line
matching the `file:` pattern; return the extracted path and the remaining
lines (`""` and no lines when no header is found, as in the Python code
where `file_path` stays `""` and the index runs off the end). -/
def findFileHeader : List String → String × List String
  | [] => ("", [])
  | l :: ls =>
    match matchFileHeader (rstripNl l) with
    | some p => (p, ls)
    | none => findFileHeader ls

/-- `parse_updates_file`: split into kept-ends lines, extract the file
header, then collect the `@@old`/`@@new`/`@@end` blocks. -/
def parse_updates_file (content : String) : String × List UpdateHunk :=
  let lines := pySplitlines content
  let (p, rest) := findFileHeader lines
  (p, parseHunks rest)

/-! ## `format_updates_file` -/

/-- `format_updates_file`: the Python code builds the `parts` list —
the header, then for each group one `"\n@@old {n}\n"` part, the old lines,
`"@@new\n"`, the new lines, and `"@@end\n"` — and joins it with `""`. -/
def format_updates_file (file_path : String) (groups : List ChangeGroup) :
    String :=
  String.join (("file: " ++ file_path ++ "\n") ::
    groups.flatMap (fun group =>
      ("\n@@old " ++ natDecStr group.old_line ++ "\n") ::
      (group.old_lines ++ ("@@new\n" :: (group.new_lines ++ ["@@end\n"])))))

/-! ## `validate_hunks` -/

/-- The `ValueError` raised by `validate_hunks`, carrying the two
`old_line` values interpolated into the message
`"Hunks overlap: hunk at line {a} and hunk at line {b}"`. -/
inductive ValErr where
  | overlap : Nat → Nat → ValErr
deriving DecidableEq

/-- The end of a hunk's base-file range as computed by `validate_hunks`:
`old_line + len(old_lines) - 1`, or `old_line - 1` for empty `old_lines`
(computed in `Int`, as in Python, so an insertion at line 0 has end -1). -/
def hunkEndI (h : UpdateHunk) : Int :=
  if h.old_lines.isEmpty then (h.old_line : Int) - 1
  else (h.old_line : Int) + h.old_lines.length - 1

/-- The overlap test of `validate_hunks`:
`start_a <= end_b and start_b <= end_a`. -/
def overlapTest (a b : UpdateHunk) : Bool :=
  decide ((a.old_line : Int) ≤ hunkEndI b) &&
  decide ((b.old_line : Int) ≤ hunkEndI a)

/-- The inner loop of `validate_hunks`: first conflict of `a` against a
later hunk, if any. -/
def findConflict (a : UpdateHunk) : List UpdateHunk → Option ValErr
  | [] => none
  | b :: bs =>
    if overlapTest a b then some (.overlap a.old_line b.old_line)
    else findConflict a bs

/-- `validate_hunks`: `none` when no pair of hunks overlaps, otherwise the
error for the first overlapping pair in loop order. -/
def validate_hunks : List UpdateHunk → Option ValErr
  | [] => none
  | a :: rest =>
    match findConflict a rest with
    | some e => some e
    | none => validate_hunks rest

/-! ## `sort_hunks` -/

/-- Stable insertion of a hunk into a list sorted by `old_line`: the new
element goes after all existing elements with a key less than or equal to
its own. -/
def insertHunk (h : UpdateHunk) : List UpdateHunk → List UpdateHunk
  | [] => [h]
  | b :: bs =>
    if h.old_line < b.old_line then h :: b :: bs else b :: insertHunk h bs

/-- `sort_hunks`: Python's `sorted(hunks, key=lambda h: h.old_line)` is a
stable sort by `old_line`; any stable sort computes the same list, and we
model it by stable insertion sort. -/
def sort_hunks (hunks : List UpdateHunk) : List UpdateHunk :=
  hunks.foldl (fun acc h => insertHunk h acc) []

/-! ## `apply_hunks` -/

/-- The `ValueError` raised by `apply_hunks`, carrying the data
interpolated into the message `"old lines not found at line {adjusted}:
expected {hunk.old_lines!r}, found {actual_lines!r}"`: the expected lines,
the actual slice, and the adjusted (computed) position. -/
inductive ApplyErr where
  | stale : List String → List String → Int → ApplyErr
deriving DecidableEq

/-- One iteration of the `for hunk in hunks` loop of `apply_hunks`, acting
on the pair (current `result`, current `offset`).  The Python branch order
is `if hunk.old_lines: … else: …`; it is rendered here with the insertion
branch under `isEmpty`. -/
def applyStep (st : List String × Int) (hunk : UpdateHunk) :
    Except ApplyErr (List String × Int) :=
  let adjusted : Int := (hunk.old_line : Int) + st.2
  if hunk.old_lines.isEmpty then
    -- pure insertion: result[insert_idx:insert_idx] = hunk.new_lines
    let insertIdx := adjusted - 1
    .ok (pySetSlice st.1 insertIdx insertIdx hunk.new_lines,
         st.2 + hunk.new_lines.length)
  else
    -- replacement or deletion
    let startIdx := adjusted - 1
    let actual := pyGetSlice st.1 startIdx (startIdx + hunk.old_lines.length)
    if actual = hunk.old_lines then
      .ok (pySetSlice st.1 startIdx (startIdx + hunk.old_lines.length)
             hunk.new_lines,
           st.2 + hunk.new_lines.length - hunk.old_lines.length)
    else
      .error (.stale hunk.old_lines actual adjusted)

/-- The loop of `apply_hunks` over the whole hunk list, threading
(`result`, `offset`) and stopping at the first error. -/
def applyLoopSt (st : List String × Int) :
    List UpdateHunk → Except ApplyErr (List String × Int)
  | [] => .ok st
  | h :: hs =>
    match applyStep st h with
    | .error e => .error e
    | .ok st' => applyLoopSt st' hs

/-- `apply_hunks`: run the loop from (`list(lines)`, `0`) and return the
final `result`. -/
def apply_hunks (lines : List String) (hunks : List UpdateHunk) :
    Except ApplyErr (List String) :=
  (applyLoopSt (lines, 0) hunks).map (·.1)

/-- `apply_hunks` together with the caller-visible buffer: the Python
function first executes `result = list(lines)` (line 368, "Make a copy to
avoid mutating input") and every slice assignment in the loop targets
`result`, never `lines`; so the value of the caller's list after the call
is the unchanged `lines`, returned here as the second component. -/
def apply_hunks_py (lines : List String) (hunks : List UpdateHunk) :
    Except ApplyErr (List String) × List String :=
  (apply_hunks lines hunks, lines)

/-! ## Specification-side definitions (used to state the claims) -/

/-- A well-formed content line for the edit format: non-empty, terminated
by exactly one `\n`, with no other line-break character. -/
def wfLine (s : String) : Bool :=
  !s.data.isEmpty && s.data.getLast? == some '\n' &&
  s.data.dropLast.all (fun c => !isLineBreakCh c)

/-- The closed base-file intervals of two records intersect (the range
reading of the specification: a record with `n` non-empty old lines
occupies `[old_line, old_line + n - 1]`, an insertion occupies the empty
interval `[old_line, old_line - 1]`). -/
def rangesIntersect (a b : UpdateHunk) : Prop :=
  ∃ x : Int, (a.old_line : Int) ≤ x ∧ x ≤ hunkEndI a ∧
    (b.old_line : Int) ≤ x ∧ x ≤ hunkEndI b

/-- `a` is a pure insertion whose anchor lies strictly inside `b`'s
non-empty range (after `b`'s start, at or before `b`'s end). -/
def anchorInsideOther (a b : UpdateHunk) : Prop :=
  a.old_lines = [] ∧ b.old_lines ≠ [] ∧
  b.old_line < a.old_line ∧ (a.old_line : Int) ≤ hunkEndI b

/-- The record list is sorted ascending by `old_line`. -/
def sortedByOldLine (hs : List UpdateHunk) : Prop :=
  List.Pairwise (fun a b => a.old_line ≤ b.old_line) hs

/-- A record's `old_lines`, when non-empty, equal the content of `rest`
(the base file from absolute position `t + 1` on) at its base position. -/
def relMatch (rest : List String) (t : Nat) (h : UpdateHunk) : Prop :=
  h.old_lines ≠ [] →
    (rest.drop (h.old_line - 1 - t)).take h.old_lines.length = h.old_lines

/-- Chain condition on a record list relative to base position `t`
(number of base lines already consumed): each record starts at base line
at least `t + 1`, and consumes through `old_line - 1 + len(old_lines)`.
For records sorted ascending it says every record's range ends strictly
before the next record's `old_line` (with insertions consuming nothing). -/
def chainValid : Nat → List UpdateHunk → Prop
  | _, [] => True
  | t, h :: hs =>
    t + 1 ≤ h.old_line ∧ chainValid (h.old_line - 1 + h.old_lines.length) hs

/-- Net line-count delta of one record. -/
def hunkDelta (h : UpdateHunk) : Int :=
  (h.new_lines.length : Int) - h.old_lines.length

/-- Net line-count delta of a record list. -/
def hunksDelta (hs : List UpdateHunk) : Int :=
  (hs.map hunkDelta).sum

/-- Base-file position `p` (1-based) is covered by (removed or replaced
by) some record of the list. -/
def coveredBy (hs : List UpdateHunk) (p : Nat) : Bool :=
  hs.any fun h =>
    !h.old_lines.isEmpty && h.old_line ≤ p && p < h.old_line + h.old_lines.length

/-- Cumulative offset the records of the list impose on base-file position
`p`: a replacement contributes once its whole range lies before `p`, an
insertion contributes once its anchor is at or before `p`. -/
def offsetAt (hs : List UpdateHunk) (p : Nat) : Int :=
  (hs.map fun h =>
    if h.old_lines.isEmpty then
      (if h.old_line ≤ p then (h.new_lines.length : Int) else 0)
    else
      (if h.old_line + h.old_lines.length ≤ p then hunkDelta h else 0)).sum

/-- Every base line not covered by a record appears in the result at its
offset-adjusted position. -/
def untouchedMapped (base res : List String) (hs : List UpdateHunk) : Prop :=
  ∀ p : Nat, 1 ≤ p → p ≤ base.length → coveredBy hs p = false →
    0 ≤ (p : Int) - 1 + offsetAt hs p ∧
    res[((p : Int) - 1 + offsetAt hs p).toNat]? = base[p - 1]?

/-- The lines (in the `splitlines` sense) that `format_updates_file` emits
for one group: the blank separator, the `@@old` header, the old lines, the
`@@new` marker, the new lines, and the `@@end` marker. -/
def groupLines (g : ChangeGroup) : List String :=
  "\n" :: ("@@old " ++ natDecStr g.old_line ++ "\n") ::
    (g.old_lines ++ "@@new\n" :: (g.new_lines ++ ["@@end\n"]))

/-- Reference rebuild of the replayed file: for each record, keep the base
lines before its (relative) start, emit its `new_lines`, skip its
`old_lines`, and continue after them. -/
def applySpec (rest : List String) (t : Nat) : List UpdateHunk → List String
  | [] => rest
  | h :: hs =>
    rest.take (h.old_line - 1 - t) ++ h.new_lines ++
      applySpec (rest.drop (h.old_line - 1 - t + h.old_lines.length))
        (h.old_line - 1 + h.old_lines.length) hs
/-! ## Basic lemmas about the string primitives -/

theorem slAux_nil (acc : List Char) :
    slAux [] acc = if acc.isEmpty then [] else [acc.reverse] := rfl

theorem slAux_break (c : Char) (rest acc : List Char)
    (hLB : isLineBreakCh c = true) (hc : c ≠ '\r') :
    slAux (c :: rest) acc = (acc.reverse ++ [c]) :: slAux rest [] := by
  rw [slAux.eq_def]
  split
  · simp_all
  · rename_i heq
    injection heq with h1 h2
    exact absurd h1 hc
  · rename_i hmat
    obtain ⟨rfl, rfl⟩ := hmat
    rw [if_pos hLB]

theorem slAux_cons_nonLB (c : Char) (rest acc : List Char)
    (h : isLineBreakCh c = false) :
    slAux (c :: rest) acc = slAux rest (c :: acc) := by
  have hc : c ≠ '\r' := by rintro rfl; simp [isLineBreakCh] at h
  rw [slAux.eq_def]
  split
  · simp_all
  · rename_i heq
    injection heq with h1 h2
    exact absurd h1 hc
  · rename_i hmat
    obtain ⟨rfl, rfl⟩ := hmat
    rw [if_neg (by simp [h])]

/-- Processing a block of non-break characters only moves them into the
accumulator. -/
theorem slAux_run (content : List Char) (rest acc : List Char)
    (h : ∀ x ∈ content, isLineBreakCh x = false) :
    slAux (content ++ rest) acc = slAux rest (content.reverse ++ acc) := by
  induction content generalizing acc with
  | nil => simp
  | cons x xs ih =>
    have hx := h x (by simp)
    have hxs : ∀ y ∈ xs, isLineBreakCh y = false := fun y hy => h y (by simp [hy])
    rw [List.cons_append, slAux_cons_nonLB x _ _ hx, ih _ hxs]
    simp

/-- Splitting off one well-formed line: content with no break characters
followed by `\n`. -/
theorem slAux_wf_line (content rest : List Char)
    (h : ∀ x ∈ content, isLineBreakCh x = false) :
    slAux (content ++ '\n' :: rest) [] = (content ++ ['\n']) :: slAux rest [] := by
  rw [slAux_run content _ [] h, slAux_break '\n' rest _ (by decide) (by decide)]
  simp

/-- A well-formed line decomposes as break-free content plus `\n`. -/
theorem wfLine_iff (s : String) :
    wfLine s = true ↔
      ∃ c : List Char, s.data = c ++ ['\n'] ∧
        ∀ x ∈ c, isLineBreakCh x = false := by
  unfold wfLine
  constructor
  · intro h
    simp only [Bool.and_eq_true, beq_iff_eq, List.all_eq_true,
      Bool.not_eq_true', Bool.not_eq_eq_eq_not, Bool.not_true] at h
    obtain ⟨⟨hne, hlast⟩, hall⟩ := h
    have hne' : s.data ≠ [] := by
      cases hd : s.data
      · rw [hd] at hne; simp at hne
      · simp [hd]
    have hdec : s.data = s.data.dropLast ++ [s.data.getLast hne'] :=
      (List.dropLast_append_getLast hne').symm
    have hlastc : s.data.getLast hne' = '\n' := by
      have := List.getLast?_eq_getLast s.data hne'
      rw [this] at hlast
      exact Option.some.inj hlast
    refine ⟨s.data.dropLast, ?_, ?_⟩
    · rw [← hlastc]; exact hdec
    · intro x hx; exact hall x hx
  · rintro ⟨c, hc, hall⟩
    simp only [hc, Bool.and_eq_true, beq_iff_eq, List.all_eq_true]
    refine ⟨⟨by simp, by simp⟩, ?_⟩
    intro x hx
    simp only [List.dropLast_concat] at hx
    simp [hall x hx]

/-- `String.join` at the level of character data. -/
theorem data_join (ls : List String) :
    (String.join ls).data = (ls.map String.data).flatten := by
  have key : ∀ (ls : List String) (a : String),
      (ls.foldl (fun r s => r ++ s) a).data = a.data ++ (ls.map String.data).flatten := by
    intro ls
    induction ls with
    | nil => intro a; simp
    | cons x xs ih =>
      intro a
      simp only [List.foldl_cons, ih (a ++ x), List.map_cons, List.flatten_cons]
      cases a; cases x
      simp [String.data]
  rw [String.join, key ls ""]
  rfl

/-- Splitting the join of well-formed lines recovers the lines. -/
theorem pySplitlines_join (ls : List String) (h : ∀ l ∈ ls, wfLine l = true) :
    pySplitlines (String.join ls) = ls := by
  unfold pySplitlines
  rw [data_join]
  induction ls with
  | nil => simp [slAux]
  | cons x xs ih =>
    obtain ⟨c, hc, hall⟩ := (wfLine_iff x).1 (h x (by simp))
    have hxs := ih (fun l hl => h l (by simp [hl]))
    simp only [List.map_cons, List.flatten_cons, hc, List.append_assoc,
      List.singleton_append]
    rw [slAux_wf_line c _ hall]
    have hx : String.mk (c ++ ['\n']) = x := by rw [← hc]
    simp only [List.map_cons, hx, hxs]
/-! ## Lemmas about `rstripNl`, `pyStrip`, digits, and the two matchers -/

theorem dropWhile_no_nl (l : List Char) (h : ∀ x ∈ l, x ≠ '\n') :
    l.dropWhile (fun c => c = '\n') = l := by
  cases l with
  | nil => rfl
  | cons y ys =>
    rw [List.dropWhile_cons, if_neg]
    simp [h y (List.mem_cons_self y ys)]

/-- `rstrip("\n")` of a well-formed line recovers its content. -/
theorem rstripNl_wf (c : List Char) (h : ∀ x ∈ c, isLineBreakCh x = false) :
    rstripNl (String.mk (c ++ ['\n'])) = String.mk c := by
  have hnl : ∀ x ∈ c, x ≠ '\n' := by
    intro x hx hx'
    have := h x hx
    rw [hx'] at this
    simp [isLineBreakCh] at this
  unfold rstripNl
  simp only [String.data]
  rw [List.reverse_append, List.reverse_singleton, List.singleton_append,
    List.dropWhile_cons, if_pos (by simp)]
  rw [dropWhile_no_nl _ (by intro x hx; exact hnl x (List.mem_reverse.mp hx))]
  simp

theorem pyStrip_space_cons (l : List Char) :
    pyStrip (String.mk (' ' :: l)) = pyStrip (String.mk l) := by
  unfold pyStrip
  simp only [String.data]
  rw [List.dropWhile_cons, if_pos (by decide)]

/-- Characterisation of `digitChar` below 10. -/
theorem digitChar_spec (n : Nat) (h : n < 10) :
    (digitChar n).toNat = 48 + n ∧ isDigitCh (digitChar n) = true := by
  interval_cases n <;> exact ⟨by decide, by decide⟩

theorem natDigitsW_all_digit : ∀ n : Nat, (natDigitsW n).all isDigitCh = true := by
  intro n
  induction n using Nat.strong_induction_on with
  | _ n ih =>
    rw [natDigitsW]
    split
    · rename_i h
      simp [(digitChar_spec n h).2]
    · rename_i h
      have hd := ih (n / 10) (Nat.div_lt_self (by omega) (by omega))
      simp [List.all_append, hd, (digitChar_spec (n % 10) (by omega)).2]

theorem natDigitsW_ne_nil (n : Nat) : natDigitsW n ≠ [] := by
  rw [natDigitsW]
  split <;> simp

theorem digitsToNat_append_digit (l : List Char) (c : Char) :
    digitsToNat (l ++ [c]) = digitsToNat l * 10 + (c.toNat - 48) := by
  unfold digitsToNat
  rw [List.foldl_append]
  rfl

theorem digitsToNat_natDigitsW : ∀ n : Nat, digitsToNat (natDigitsW n) = n := by
  intro n
  induction n using Nat.strong_induction_on with
  | _ n ih =>
    rw [natDigitsW]
    split
    · rename_i h
      show digitsToNat [digitChar n] = n
      unfold digitsToNat
      simp [(digitChar_spec n h).1]
    · rename_i h
      rw [digitsToNat_append_digit, ih (n / 10) (Nat.div_lt_self (by omega) (by omega)),
        (digitChar_spec (n % 10) (by omega)).1]
      omega

/-- The fuel in `natDigits` is always sufficient, so it agrees with the
recursive reference form. -/
theorem natDigitsCore_eq_W : ∀ (fuel n : Nat) (ds : List Char), n < fuel →
    natDigitsCore fuel n ds = natDigitsW n ++ ds := by
  intro fuel
  induction fuel with
  | zero => intro n ds h; omega
  | succ fuel ih =>
    intro n ds h
    rw [natDigitsCore]
    split
    · rename_i h10
      rw [natDigitsW]
      rw [dif_pos h10]
      rfl
    · rename_i h10
      rw [ih (n / 10) _ (by omega)]
      conv_rhs => rw [natDigitsW]
      rw [dif_neg h10]
      simp

theorem natDigits_eq_W (n : Nat) : natDigits n = natDigitsW n := by
  unfold natDigits
  rw [natDigitsCore_eq_W (n + 1) n [] (by omega)]
  simp

theorem natDigits_all_digit (n : Nat) : (natDigits n).all isDigitCh = true := by
  rw [natDigits_eq_W]; exact natDigitsW_all_digit n

theorem natDigits_ne_nil (n : Nat) : natDigits n ≠ [] := by
  rw [natDigits_eq_W]; exact natDigitsW_ne_nil n

theorem digitsToNat_natDigits (n : Nat) : digitsToNat (natDigits n) = n := by
  rw [natDigits_eq_W]; exact digitsToNat_natDigitsW n

theorem isDigitCh_not_space (c : Char) (h : isDigitCh c = true) :
    isPySpaceCh c = false := by
  simp only [isDigitCh, Bool.and_eq_true, decide_eq_true_eq] at h
  simp only [isPySpaceCh, Bool.or_eq_false_iff, Bool.and_eq_false_iff,
    decide_eq_false_iff_not]
  omega

theorem isDigitCh_not_LB (c : Char) (h : isDigitCh c = true) :
    isLineBreakCh c = false := by
  simp only [isDigitCh, Bool.and_eq_true, decide_eq_true_eq] at h
  simp only [isLineBreakCh, Bool.or_eq_false_iff, decide_eq_false_iff_not]
  omega

theorem takeWhile_digits (l : List Char) (h : l.all isDigitCh = true) :
    l.takeWhile isPySpaceCh = [] := by
  cases l with
  | nil => rfl
  | cons y ys =>
    have hy : isDigitCh y = true := by
      simp only [List.all_cons, Bool.and_eq_true] at h
      exact h.1
    rw [List.takeWhile_cons, if_neg (by simp [isDigitCh_not_space y hy])]

theorem dropWhile_digits (l : List Char) (h : l.all isDigitCh = true) :
    l.dropWhile isPySpaceCh = l := by
  cases l with
  | nil => rfl
  | cons y ys =>
    have hy : isDigitCh y = true := by
      simp only [List.all_cons, Bool.and_eq_true] at h
      exact h.1
    rw [List.dropWhile_cons, if_neg (by simp [isDigitCh_not_space y hy])]

/-- The `@@old` matcher applied to a rendered `@@old {n}` header. -/
theorem matchOldHeader_render (n : Nat) :
    matchOldHeader (String.mk ("@@old ".data ++ natDigits n)) = some n := by
  have hstep :
      matchOldHeader (String.mk ("@@old ".data ++ natDigits n)) =
        (let ws := (' ' :: natDigits n).takeWhile isPySpaceCh
         let ds := (' ' :: natDigits n).dropWhile isPySpaceCh
         if ws.isEmpty || ds.isEmpty || !ds.all isDigitCh then none
         else some (digitsToNat ds)) := rfl
  rw [hstep]
  simp only [List.takeWhile_cons, List.dropWhile_cons, if_pos (by decide : isPySpaceCh ' ' = true)]
  rw [takeWhile_digits _ (natDigits_all_digit n), dropWhile_digits _ (natDigits_all_digit n)]
  rw [if_neg (by simp [natDigits_ne_nil n, natDigits_all_digit n])]
  rw [digitsToNat_natDigits]

theorem contains_nl_eq_false (l : List Char) (h : ∀ x ∈ l, isLineBreakCh x = false) :
    l.contains '\n' = false := by
  induction l with
  | nil => rfl
  | cons y ys ih =>
    have hy : y ≠ '\n' := by
      intro hy'
      have := h y (List.mem_cons_self y ys)
      rw [hy'] at this
      simp [isLineBreakCh] at this
    simp only [List.contains_cons]
    rw [ih (fun x hx => h x (List.mem_cons_of_mem y hx))]
    simp [Ne.symm hy]

/-- The `file:` matcher applied to a rendered header for a strip-stable,
break-free path. -/
theorem matchFileHeader_render (path : String)
    (hLB : ∀ x ∈ path.data, isLineBreakCh x = false)
    (hstrip : pyStrip path = path) :
    matchFileHeader (String.mk ("file: ".data ++ path.data)) = some path := by
  have hstep :
      matchFileHeader (String.mk ("file: ".data ++ path.data)) =
        (if (' ' :: path.data).isEmpty || (' ' :: path.data).contains '\n' then none
         else some (pyStrip (String.mk (' ' :: path.data)))) := rfl
  rw [hstep]
  rw [if_neg]
  · rw [pyStrip_space_cons]
    have : String.mk path.data = path := rfl
    rw [this, hstrip]
  · simp only [List.isEmpty_cons, List.contains_cons, Bool.or_eq_true, not_or]
    constructor
    · simp
    · rw [contains_nl_eq_false _ hLB]
      simp
/-! ## Parsing the rendered updates file -/

theorem rstripNl_blank : rstripNl "\n" = "" := by decide

theorem matchOldHeader_empty : matchOldHeader "" = none := rfl

theorem parseStep_inOld_content (hs : List UpdateHunk) (n : Nat)
    (acc : List String) (l : String) (h : rstripNl l ≠ "@@new") :
    parseStep (hs, .inOld n acc) l = (hs, .inOld n (acc ++ [l])) := by
  simp [parseStep, h]

theorem parseStep_inNew_content (hs : List UpdateHunk) (n : Nat)
    (olds acc : List String) (l : String) (h : rstripNl l ≠ "@@end") :
    parseStep (hs, .inNew n olds acc) l = (hs, .inNew n olds (acc ++ [l])) := by
  simp [parseStep, h]

theorem parseFold_olds (olds : List String) (tail : List String)
    (hs : List UpdateHunk) (n : Nat) (acc : List String)
    (h : ∀ l ∈ olds, rstripNl l ≠ "@@new") :
    List.foldl parseStep (hs, .inOld n acc) (olds ++ tail) =
      List.foldl parseStep (hs, .inOld n (acc ++ olds)) tail := by
  induction olds generalizing acc with
  | nil => simp
  | cons x xs ih =>
    rw [List.cons_append, List.foldl_cons,
      parseStep_inOld_content hs n acc x (h x (List.mem_cons_self x xs)),
      ih _ (fun l hl => h l (List.mem_cons_of_mem x hl))]
    simp

theorem parseFold_news (news : List String) (tail : List String)
    (hs : List UpdateHunk) (n : Nat) (olds acc : List String)
    (h : ∀ l ∈ news, rstripNl l ≠ "@@end") :
    List.foldl parseStep (hs, .inNew n olds acc) (news ++ tail) =
      List.foldl parseStep (hs, .inNew n olds (acc ++ news)) tail := by
  induction news generalizing acc with
  | nil => simp
  | cons x xs ih =>
    rw [List.cons_append, List.foldl_cons,
      parseStep_inNew_content hs n olds acc x (h x (List.mem_cons_self x xs)),
      ih _ (fun l hl => h l (List.mem_cons_of_mem x hl))]
    simp

/-- `rstrip("\n")` of the rendered `@@old` header line. -/
theorem rstripNl_oldHeader (n : Nat) :
    rstripNl ("@@old " ++ natDecStr n ++ "\n") =
      String.mk ("@@old ".data ++ natDigits n) := by
  have hdata : ("@@old " ++ natDecStr n ++ "\n").data =
      ("@@old ".data ++ natDigits n) ++ ['\n'] := by
    rw [String.data_append, String.data_append]
    rfl
  have : ("@@old " ++ natDecStr n ++ "\n") =
      String.mk (("@@old ".data ++ natDigits n) ++ ['\n']) := by
    rw [← hdata]
  rw [this]
  apply rstripNl_wf
  intro x hx
  rcases List.mem_append.mp hx with hx | hx
  · fin_cases hx <;> decide
  · exact isDigitCh_not_LB x (by
      have := natDigits_all_digit n
      rw [List.all_eq_true] at this
      exact this x hx)

/-- Consuming one rendered group block from `top` mode. -/
theorem parseFold_group (g : ChangeGroup) (hs : List UpdateHunk)
    (tail : List String)
    (hold : ∀ l ∈ g.old_lines, rstripNl l ≠ "@@new")
    (hnew : ∀ l ∈ g.new_lines, rstripNl l ≠ "@@end") :
    List.foldl parseStep (hs, .top) (groupLines g ++ tail) =
      List.foldl parseStep
        (hs ++ [⟨g.old_line, g.old_lines, g.new_lines⟩], .top) tail := by
  unfold groupLines
  rw [List.cons_append, List.foldl_cons]
  rw [show parseStep (hs, .top) "\n" = (hs, .top) by
    simp [parseStep, rstripNl_blank, matchOldHeader_empty]]
  rw [List.cons_append, List.foldl_cons]
  rw [show parseStep (hs, .top) ("@@old " ++ natDecStr g.old_line ++ "\n") =
      (hs, .inOld g.old_line []) by
    simp only [parseStep]
    rw [rstripNl_oldHeader, matchOldHeader_render]]
  rw [List.append_assoc, List.cons_append]
  rw [parseFold_olds g.old_lines _ hs g.old_line [] hold]
  rw [List.nil_append, List.foldl_cons]
  rw [show parseStep (hs, .inOld g.old_line g.old_lines) "@@new\n" =
      (hs, .inNew g.old_line g.old_lines []) by
    simp only [parseStep]
    rw [if_pos (by decide)]]
  rw [List.append_assoc, List.singleton_append]
  rw [parseFold_news g.new_lines _ hs g.old_line g.old_lines [] hnew]
  rw [List.nil_append, List.foldl_cons]
  rw [show parseStep (hs, .inNew g.old_line g.old_lines g.new_lines) "@@end\n" =
      (hs ++ [⟨g.old_line, g.old_lines, g.new_lines⟩], .top) by
    simp only [parseStep]
    rw [if_pos (by decide)]]

/-- Parsing the rendered group lines yields exactly the groups. -/
theorem parseHunks_rendered (groups : List ChangeGroup)
    (hold : ∀ g ∈ groups, ∀ l ∈ g.old_lines, rstripNl l ≠ "@@new")
    (hnew : ∀ g ∈ groups, ∀ l ∈ g.new_lines, rstripNl l ≠ "@@end") :
    parseHunks (groups.flatMap groupLines) =
      groups.map (fun g => UpdateHunk.mk g.old_line g.old_lines g.new_lines) := by
  have key : ∀ (groups : List ChangeGroup) (hs : List UpdateHunk),
      (∀ g ∈ groups, ∀ l ∈ g.old_lines, rstripNl l ≠ "@@new") →
      (∀ g ∈ groups, ∀ l ∈ g.new_lines, rstripNl l ≠ "@@end") →
      List.foldl parseStep (hs, .top) (groups.flatMap groupLines) =
        (hs ++ groups.map (fun g => UpdateHunk.mk g.old_line g.old_lines g.new_lines),
          .top) := by
    intro groups
    induction groups with
    | nil => intro hs _ _; simp
    | cons g gs ih =>
      intro hs h1 h2
      rw [List.flatMap_cons]
      rw [parseFold_group g hs _ (h1 g (List.mem_cons_self g gs))
        (h2 g (List.mem_cons_self g gs))]
      rw [ih _ (fun g' hg' => h1 g' (List.mem_cons_of_mem g hg'))
        (fun g' hg' => h2 g' (List.mem_cons_of_mem g hg'))]
      simp
  unfold parseHunks
  rw [key groups [] hold hnew]
  simp
/-! ## The rendered updates file: line structure and well-formedness -/

theorem str_eq_of_data (s t : String) (h : s.data = t.data) : s = t := by
  cases s
  cases t
  exact congrArg String.mk (by simpa using h)

/-- `format_updates_file` is the join of the header line and the rendered
group lines (the only difference from the Python `parts` list is that the
part `"\n@@old {n}\n"` is split at its internal newline). -/
theorem format_eq_join (path : String) (groups : List ChangeGroup) :
    format_updates_file path groups =
      String.join (("file: " ++ path ++ "\n") :: groups.flatMap groupLines) := by
  apply str_eq_of_data
  unfold format_updates_file
  rw [data_join, data_join]
  simp only [List.map_cons, List.flatten_cons]
  congr 1
  induction groups with
  | nil => rfl
  | cons g gs ih =>
    simp only [List.flatMap_cons, List.map_append, List.flatten_append, ih]
    congr 1

theorem wfLine_header (path : String)
    (hLB : ∀ x ∈ path.data, isLineBreakCh x = false) :
    wfLine ("file: " ++ path ++ "\n") = true := by
  rw [wfLine_iff]
  refine ⟨"file: ".data ++ path.data, ?_, ?_⟩
  · rw [String.data_append, String.data_append]
  · intro x hx
    rcases List.mem_append.mp hx with hx | hx
    · fin_cases hx <;> decide
    · exact hLB x hx

theorem wfLine_oldHeader (n : Nat) :
    wfLine ("@@old " ++ natDecStr n ++ "\n") = true := by
  rw [wfLine_iff]
  refine ⟨"@@old ".data ++ natDigits n, ?_, ?_⟩
  · rw [String.data_append, String.data_append]
    rfl
  · intro x hx
    rcases List.mem_append.mp hx with hx | hx
    · fin_cases hx <;> decide
    · exact isDigitCh_not_LB x (by
        have := natDigits_all_digit n
        rw [List.all_eq_true] at this
        exact this x hx)

theorem findFileHeader_rendered (path : String) (rest : List String)
    (hLB : ∀ x ∈ path.data, isLineBreakCh x = false)
    (hstrip : pyStrip path = path) :
    findFileHeader (("file: " ++ path ++ "\n") :: rest) = (path, rest) := by
  have hdr : ("file: " ++ path ++ "\n") =
      String.mk (("file: ".data ++ path.data) ++ ['\n']) := by
    apply str_eq_of_data
    rw [String.data_append, String.data_append]
  rw [findFileHeader, hdr, rstripNl_wf _ ?hc, matchFileHeader_render path hLB hstrip]
  case hc =>
    intro x hx
    rcases List.mem_append.mp hx with hx | hx
    · fin_cases hx <;> decide
    · exact hLB x hx

/-! ## Claim C1: the codec round-trip -/

/-- **C1, counterexample.**  The round-trip claim fails as universally
stated: for the group `⟨1, ["@@new\n"], []⟩` the serialized form
`file: f\n\n@@old 1\n@@new\n@@new\n@@end\n` re-parses with the first
`@@new` line taken as the section separator, so the old/new sides come
back swapped. -/
theorem claim_C1_cex :
    parse_updates_file (format_updates_file "f" [⟨1, ["@@new\n"], []⟩]) =
      ("f", [UpdateHunk.mk 1 [] ["@@new\n"]]) ∧
    UpdateHunk.mk 1 [] ["@@new\n"] ≠ UpdateHunk.mk 1 ["@@new\n"] [] := by
  constructor
  · rfl
  · decide

/-- **C1, amended.**  Serialize-then-parse reproduces the file path and the
exact ordered `(old_line, old_lines, new_lines)` triples, provided the path
contains no line-break character and is `strip`-stable, and every content
line is newline-terminated with no internal break character and is not the
`@@new` (for old lines) or `@@end` (for new lines) marker. -/
theorem claim_C1_roundtrip (path : String) (groups : List ChangeGroup)
    (hpathLB : ∀ x ∈ path.data, isLineBreakCh x = false)
    (hpathStrip : pyStrip path = path)
    (hold : ∀ g ∈ groups, ∀ l ∈ g.old_lines, wfLine l = true ∧ rstripNl l ≠ "@@new")
    (hnew : ∀ g ∈ groups, ∀ l ∈ g.new_lines, wfLine l = true ∧ rstripNl l ≠ "@@end") :
    parse_updates_file (format_updates_file path groups) =
      (path, groups.map fun g => UpdateHunk.mk g.old_line g.old_lines g.new_lines) := by
  have h1 : pySplitlines (format_updates_file path groups) =
      ("file: " ++ path ++ "\n") :: groups.flatMap groupLines := by
    rw [format_eq_join]
    apply pySplitlines_join
    intro l hl
    rcases List.mem_cons.mp hl with rfl | hl
    · exact wfLine_header path hpathLB
    · obtain ⟨g, hg, hgl⟩ := List.mem_flatMap.mp hl
      unfold groupLines at hgl
      rcases List.mem_cons.mp hgl with rfl | hgl
      · decide
      rcases List.mem_cons.mp hgl with rfl | hgl
      · exact wfLine_oldHeader g.old_line
      rcases List.mem_append.mp hgl with hgl | hgl
      · exact (hold g hg l hgl).1
      rcases List.mem_cons.mp hgl with rfl | hgl
      · decide
      rcases List.mem_append.mp hgl with hgl | hgl
      · exact (hnew g hg l hgl).1
      · rcases List.mem_singleton.mp hgl with rfl
        decide
  have h2 := findFileHeader_rendered path (groups.flatMap groupLines) hpathLB hpathStrip
  have h3 := parseHunks_rendered groups (fun g hg l hl => (hold g hg l hl).2)
    (fun g hg l hl => (hnew g hg l hl).2)
  show (match findFileHeader (pySplitlines (format_updates_file path groups)) with
        | (p, rest) => (p, parseHunks rest)) =
      (path, groups.map fun g => UpdateHunk.mk g.old_line g.old_lines g.new_lines)
  rw [h1, h2]
  show (path, parseHunks (groups.flatMap groupLines)) =
      (path, groups.map fun g => UpdateHunk.mk g.old_line g.old_lines g.new_lines)
  rw [h3]

/-- **C1, witness.**  The amended round-trip at a concrete replacement,
deletion, and insertion. -/
theorem claim_C1_roundtrip_witness :
    parse_updates_file (format_updates_file "src/a.py"
        [⟨43, ["old 1\n", "old 2\n"], ["new 1\n"]⟩,
         ⟨88, ["gone\n"], []⟩, ⟨100, [], ["ins\n"]⟩]) =
      ("src/a.py",
        [UpdateHunk.mk 43 ["old 1\n", "old 2\n"] ["new 1\n"],
         UpdateHunk.mk 88 ["gone\n"] [], UpdateHunk.mk 100 [] ["ins\n"]]) :=
  claim_C1_roundtrip "src/a.py"
    [⟨43, ["old 1\n", "old 2\n"], ["new 1\n"]⟩,
     ⟨88, ["gone\n"], []⟩, ⟨100, [], ["ins\n"]⟩]
    (by decide) (by decide) (by decide) (by decide)
/-! ## Claim C3: the conflict validator -/

theorem overlapTest_symm (a b : UpdateHunk) : overlapTest a b = overlapTest b a := by
  unfold overlapTest
  rw [Bool.and_comm]

theorem findConflict_eq_none (a : UpdateHunk) (l : List UpdateHunk) :
    findConflict a l = none ↔ ∀ b ∈ l, overlapTest a b = false := by
  induction l with
  | nil => simp [findConflict]
  | cons b bs ih =>
    unfold findConflict
    by_cases hb : overlapTest a b
    · simp [hb]
    · simp only [Bool.not_eq_true] at hb
      simp [hb, ih]

theorem validate_hunks_none_iff (l : List UpdateHunk) :
    validate_hunks l = none ↔
      List.Pairwise (fun a b => overlapTest a b = false) l := by
  induction l with
  | nil => simp [validate_hunks]
  | cons a rest ih =>
    unfold validate_hunks
    rw [List.pairwise_cons]
    cases hf : findConflict a rest with
    | some e => simp [← findConflict_eq_none, hf]
    | none =>
      simp only [ih]
      rw [findConflict_eq_none] at hf
      exact ⟨fun hp => ⟨hf, hp⟩, fun hp => hp.2⟩

theorem hunkEndI_of_nil (h : UpdateHunk) (he : h.old_lines = []) :
    hunkEndI h = (h.old_line : Int) - 1 := by
  unfold hunkEndI
  rw [if_pos (by simp [he])]

theorem hunkEndI_of_ne_nil (h : UpdateHunk) (he : h.old_lines ≠ []) :
    hunkEndI h = (h.old_line : Int) + h.old_lines.length - 1 := by
  unfold hunkEndI
  rw [if_neg (by simp [he])]

theorem overlapTest_true_iff (a b : UpdateHunk) :
    overlapTest a b = true ↔
      ((a.old_line : Int) ≤ hunkEndI b ∧ (b.old_line : Int) ≤ hunkEndI a) := by
  unfold overlapTest
  simp

/-- The overlap test fires exactly when the two closed ranges intersect,
or a pure insertion's anchor lies strictly inside the other record's
range. -/
theorem overlapTest_iff (a b : UpdateHunk) :
    overlapTest a b = true ↔
      (rangesIntersect a b ∨ anchorInsideOther a b ∨ anchorInsideOther b a) := by
  rw [overlapTest_true_iff]
  unfold rangesIntersect anchorInsideOther
  by_cases hae : a.old_lines = [] <;> by_cases hbe : b.old_lines = []
  · rw [hunkEndI_of_nil a hae, hunkEndI_of_nil b hbe]
    constructor
    · intro h
      exfalso
      omega
    · rintro (⟨x, h1, h2, h3, h4⟩ | ⟨-, hb', -, -⟩ | ⟨-, ha', -, -⟩)
      · exfalso
        omega
      · exact absurd hbe hb'
      · exact absurd hae ha'
  · have hbl : 0 < b.old_lines.length := List.length_pos.mpr hbe
    rw [hunkEndI_of_nil a hae, hunkEndI_of_ne_nil b hbe]
    constructor
    · intro h
      exact Or.inr (Or.inl ⟨hae, hbe, by omega, by omega⟩)
    · rintro (⟨x, h1, h2, h3, h4⟩ | ⟨-, -, h3, h4⟩ | ⟨hb', -, -, -⟩)
      · exfalso
        omega
      · exact ⟨by omega, by omega⟩
      · exact absurd hb' hbe
  · have hal : 0 < a.old_lines.length := List.length_pos.mpr hae
    rw [hunkEndI_of_ne_nil a hae, hunkEndI_of_nil b hbe]
    constructor
    · intro h
      exact Or.inr (Or.inr ⟨hbe, hae, by omega, by omega⟩)
    · rintro (⟨x, h1, h2, h3, h4⟩ | ⟨ha', -, -, -⟩ | ⟨-, -, h3, h4⟩)
      · exfalso
        omega
      · exact absurd ha' hae
      · exact ⟨by omega, by omega⟩
  · have hal : 0 < a.old_lines.length := List.length_pos.mpr hae
    have hbl : 0 < b.old_lines.length := List.length_pos.mpr hbe
    rw [hunkEndI_of_ne_nil a hae, hunkEndI_of_ne_nil b hbe]
    constructor
    · intro h
      rcases le_or_lt (a.old_line : Int) b.old_line with hab | hab
      · exact Or.inl ⟨b.old_line, by omega, by omega, by omega, by omega⟩
      · exact Or.inl ⟨a.old_line, by omega, by omega, by omega, by omega⟩
    · rintro (⟨x, h1, h2, h3, h4⟩ | ⟨ha', -, -, -⟩ | ⟨hb', -, -, -⟩)
      · exact ⟨by omega, by omega⟩
      · exact absurd ha' hae
      · exact absurd hb' hbe

/-- **C3, counterexample.**  A pure insertion anchored at line 5 against a
replacement of lines 3–7: the two closed ranges `[5,4]` (empty) and
`[3,7]` do not intersect as interval sets, and the claim says a pure
insertion never conflicts with any other record, yet `validate_hunks`
raises the overlap error. -/
theorem claim_C3_cex :
    validate_hunks [⟨5, [], ["x\n"]⟩,
        ⟨3, ["a\n", "b\n", "c\n", "d\n", "e\n"], ["y\n"]⟩] =
      some (ValErr.overlap 5 3) ∧
    ¬ rangesIntersect ⟨5, [], ["x\n"]⟩
        ⟨3, ["a\n", "b\n", "c\n", "d\n", "e\n"], ["y\n"]⟩ ∧
    ¬ rangesIntersect ⟨3, ["a\n", "b\n", "c\n", "d\n", "e\n"], ["y\n"]⟩
        ⟨5, [], ["x\n"]⟩ := by
  refine ⟨rfl, ?_, ?_⟩
  · rintro ⟨x, h1, h2, h3, h4⟩
    rw [hunkEndI_of_nil _ rfl] at h2
    simp at h1 h2
    omega
  · rintro ⟨x, h1, h2, h3, h4⟩
    rw [hunkEndI_of_nil _ rfl] at h4
    simp at h3 h4
    omega

/-- **C3, amended.**  `validate_hunks` fails exactly when some pair of
records fires the code's symmetric overlap test `start_a ≤ end_b ∧
start_b ≤ end_a` (with `end = old_line - 1` for a pure insertion); that
test holds iff the two closed ranges intersect **or** a pure insertion's
anchor lies strictly inside the other record's non-empty range — so an
insertion can conflict.  The outcome is independent of the order of the
records. -/
theorem claim_C3_validator (hs : List UpdateHunk) :
    ((validate_hunks hs).isSome ↔
      ¬ List.Pairwise (fun a b => overlapTest a b = false) hs) ∧
    (∀ a b : UpdateHunk, overlapTest a b = true ↔
      (rangesIntersect a b ∨ anchorInsideOther a b ∨ anchorInsideOther b a)) ∧
    (∀ hs' : List UpdateHunk, hs.Perm hs' →
      ((validate_hunks hs).isSome ↔ (validate_hunks hs').isSome)) := by
  have hiff : ∀ l : List UpdateHunk, (validate_hunks l).isSome ↔
      ¬ List.Pairwise (fun a b => overlapTest a b = false) l := by
    intro l
    rw [← validate_hunks_none_iff]
    cases validate_hunks l <;> simp
  refine ⟨hiff hs, fun a b => overlapTest_iff a b, fun hs' hp => ?_⟩
  rw [hiff hs, hiff hs']
  have hsym : ∀ {x y : UpdateHunk},
      overlapTest x y = false → overlapTest y x = false := by
    intro x y h
    rwa [overlapTest_symm] at h
  rw [List.Perm.pairwise_iff hsym hp]

/-- **C3, witness.**  Order-independence instantiated at a concrete
permutation of two overlapping records. -/
theorem claim_C3_validator_witness :
    (validate_hunks [⟨1, ["a\n"], []⟩, ⟨1, ["b\n"], []⟩]).isSome ↔
      (validate_hunks [⟨1, ["b\n"], []⟩, ⟨1, ["a\n"], []⟩]).isSome :=
  (claim_C3_validator [⟨1, ["a\n"], []⟩, ⟨1, ["b\n"], []⟩]).2.2
    [⟨1, ["b\n"], []⟩, ⟨1, ["a\n"], []⟩] (List.Perm.swap _ _ _)

/-! ## Claims C4, C8, C9, C10: the patch replayer's error and copy
behaviour -/

theorem applyLoopSt_append (st : List String × Int) (l1 l2 : List UpdateHunk) :
    applyLoopSt st (l1 ++ l2) =
      match applyLoopSt st l1 with
      | .error e => .error e
      | .ok st' => applyLoopSt st' l2 := by
  induction l1 generalizing st with
  | nil => simp [applyLoopSt]
  | cons hh hs ih =>
    rw [List.cons_append]
    have e1 : applyLoopSt st (hh :: (hs ++ l2)) =
        match applyStep st hh with
        | .error e => .error e
        | .ok st' => applyLoopSt st' (hs ++ l2) := rfl
    have e2 : applyLoopSt st (hh :: hs) =
        match applyStep st hh with
        | .error e => .error e
        | .ok st' => applyLoopSt st' hs := rfl
    rw [e1, e2]
    cases applyStep st hh with
    | error e => rfl
    | ok st' => exact ih st'

/-- **C4.**  If the replay of a prefix succeeds with state
(`res`, `off`) and the next record has non-empty `old_lines` that differ
from the slice of the current result at its computed position
`old_line + off`, then `apply_hunks` fails with the stale-content error
carrying the expected lines, the actual slice, and the computed position —
regardless of what follows — and the caller's list is returned unchanged
(the function returns no result list at all). -/
theorem claim_C4_stale (lines res : List String) (off : Int)
    (pre post : List UpdateHunk) (h : UpdateHunk)
    (hpre : applyLoopSt (lines, 0) pre = .ok (res, off))
    (hne : h.old_lines ≠ [])
    (hmm : pyGetSlice res ((h.old_line : Int) + off - 1)
        ((h.old_line : Int) + off - 1 + h.old_lines.length) ≠ h.old_lines) :
    apply_hunks_py lines (pre ++ h :: post) =
      (.error (ApplyErr.stale h.old_lines
          (pyGetSlice res ((h.old_line : Int) + off - 1)
            ((h.old_line : Int) + off - 1 + h.old_lines.length))
          ((h.old_line : Int) + off)), lines) := by
  have hstep : applyStep (res, off) h =
      .error (ApplyErr.stale h.old_lines
        (pyGetSlice res ((h.old_line : Int) + off - 1)
          ((h.old_line : Int) + off - 1 + h.old_lines.length))
        ((h.old_line : Int) + off)) := by
    unfold applyStep
    rw [if_neg (by simp [hne])]
    rw [if_neg hmm]
  unfold apply_hunks_py apply_hunks
  rw [applyLoopSt_append, hpre]
  unfold applyLoopSt
  rw [hstep]
  rfl

/-- **C4, witness.** -/
theorem claim_C4_stale_witness :
    apply_hunks_py ["a\n"] ([] ++ UpdateHunk.mk 1 ["z\n"] [] :: []) =
      (.error (ApplyErr.stale ["z\n"]
          (pyGetSlice ["a\n"] (((1 : Nat) : Int) + 0 - 1)
            (((1 : Nat) : Int) + 0 - 1 + (["z\n"] : List String).length))
          (((1 : Nat) : Int) + 0)), ["a\n"]) :=
  claim_C4_stale ["a\n"] ["a\n"] 0 [] [] (UpdateHunk.mk 1 ["z\n"] [])
    rfl (by decide) (by decide)

/-- **C8, counterexample.**  A successful `apply_hunks` call returns the
edited list, but the caller's list still holds the original content: the
Python function copies `lines` at line 368 and never mutates the caller's
sequence, contradicting the claim that the caller's sequence itself holds
the result. -/
theorem claim_C8_cex :
    apply_hunks_py ["a\n"] [⟨1, ["a\n"], ["b\n"]⟩] =
      (.ok ["b\n"], ["a\n"]) ∧ (["b\n"] : List String) ≠ ["a\n"] := by
  exact ⟨rfl, by decide⟩

/-- **C8, amended.**  `apply_hunks` operates on a copy: after any call the
caller-supplied list is unchanged, and the edited sequence is only the
returned value. -/
theorem claim_C8_copy (lines : List String) (hunks : List UpdateHunk) :
    (apply_hunks_py lines hunks).2 = lines := rfl

/-- **C9.**  A pure-insertion record can never produce a stale-content
error: whatever the current result list, offset, anchor value, or base
content, the replay step for a record with empty `old_lines` succeeds
(no comparison against the base content is made). -/
theorem claim_C9_insertion_no_stale (result : List String) (offset : Int)
    (h : UpdateHunk) (he : h.old_lines = []) :
    ∃ st' : List String × Int, applyStep (result, offset) h = .ok st' := by
  refine ⟨(pySetSlice result ((h.old_line : Int) + offset - 1)
      ((h.old_line : Int) + offset - 1) h.new_lines,
    offset + h.new_lines.length), ?_⟩
  unfold applyStep
  rw [if_pos (by simp [he])]

/-- **C9, witness.** -/
theorem claim_C9_insertion_no_stale_witness :
    ∃ st' : List String × Int,
      applyStep (["a\n"], 0) (UpdateHunk.mk 7 [] ["x\n"]) = .ok st' :=
  claim_C9_insertion_no_stale ["a\n"] 0 (UpdateHunk.mk 7 [] ["x\n"]) rfl

/-- **C10.**  A pure-insertion record with `old_line = 0` (the value the
grouper assigns to every pure insertion) replayed with zero accumulated
offset against a non-empty base computes splice index `-1`, which Python
normalises to `len - 1`: the new lines land immediately before the last
line of the base, not at the start of the file. -/
theorem pySetSlice_neg_one (l x : List String) (h : 1 ≤ l.length) :
    pySetSlice l (-1) (-1) x =
      l.take (l.length - 1) ++ x ++ l.drop (l.length - 1) := by
  unfold pySetSlice pyNorm
  rw [if_pos (by omega : (-1 : Int) < 0)]
  have h1 : ((l.length : Int) + -1).toNat = l.length - 1 := by omega
  rw [h1]
  simp

theorem claim_C10_anchor_zero (base new_lines : List String) (hne : base ≠ []) :
    apply_hunks base [⟨0, [], new_lines⟩] =
      .ok (base.take (base.length - 1) ++ new_lines ++
        base.drop (base.length - 1)) := by
  have hlen : 1 ≤ base.length := List.length_pos.mpr hne
  have hstep : applyStep (base, 0) ⟨0, [], new_lines⟩ =
      .ok (pySetSlice base (-1) (-1) new_lines, (new_lines.length : Int)) := by
    unfold applyStep
    rw [if_pos (by simp)]
    norm_num
  have hloop : applyLoopSt (base, 0) [⟨0, [], new_lines⟩] =
      match applyStep (base, 0) ⟨0, [], new_lines⟩ with
      | .error e => .error e
      | .ok st' => applyLoopSt st' [] := rfl
  unfold apply_hunks
  rw [hloop, hstep]
  rw [pySetSlice_neg_one base new_lines hlen]
  rfl

/-- **C10, witness.** -/
theorem claim_C10_anchor_zero_witness :
    apply_hunks ["a\n", "b\n"] [⟨0, [], ["x\n"]⟩] =
      .ok ((["a\n", "b\n"] : List String).take 1 ++ ["x\n"] ++
        (["a\n", "b\n"] : List String).drop 1) :=
  claim_C10_anchor_zero ["a\n", "b\n"] ["x\n"] (by decide)
/-! ## Claims C5 and C6: the change grouper -/

theorem starts_head_data (l : String) (p : String) (c : Char)
    (hp : p.data = [c]) (h : strStarts l p = true) : ∃ t, l.data = c :: t := by
  have h' : p.data.isPrefixOf l.data = true := h
  rw [hp] at h'
  cases hl : l.data with
  | nil =>
    rw [hl] at h'
    simp [List.isPrefixOf] at h'
  | cons y ys =>
    rw [hl] at h'
    simp only [List.isPrefixOf, List.isPrefixOf_nil_left, Bool.and_true,
      beq_iff_eq] at h'
    exact ⟨ys, by rw [h']⟩

theorem starts_of_head (l : String) (c : Char) (t : List Char) (d : Char)
    (hl : l.data = c :: t) (p : String) (hp : p.data = [d]) :
    strStarts l p = (c == d) := by
  have h' : strStarts l p = p.data.isPrefixOf l.data := rfl
  rw [h', hp, hl]
  simp [List.isPrefixOf, BEq.comm]

theorem groupStep_ctx_open (st : GState) (l : String)
    (h : strStarts l " " = true) (hne : ¬(st.curOld.isEmpty && st.curNew.isEmpty)) :
    groupStep st l =
      { groups := st.groups ++ [⟨st.oldLine, st.curOld, st.curNew⟩],
        curOld := [], curNew := [], oldLine := 0, cursor := st.cursor + 1 } := by
  unfold groupStep
  rw [if_pos h, if_neg hne]

theorem foldl_groupStep_ctx (ctx : List String) (gs : List ChangeGroup)
    (ol c : Nat) (h : ∀ l ∈ ctx, strStarts l " " = true) :
    List.foldl groupStep ⟨gs, [], [], ol, c⟩ ctx =
      ⟨gs, [], [], ol, c + ctx.length⟩ := by
  induction ctx generalizing c with
  | nil => simp
  | cons x xs ih =>
    rw [List.foldl_cons]
    rw [show groupStep ⟨gs, [], [], ol, c⟩ x = ⟨gs, [], [], ol, c + 1⟩ by
      unfold groupStep
      rw [if_pos (h x (List.mem_cons_self x xs)), if_pos (by simp)]]
    rw [ih (c + 1) (fun l hl => h l (List.mem_cons_of_mem x hl))]
    simp only [List.length_cons]
    congr 1
    omega

theorem foldl_groupStep_dash_more (rem : List String) (gs : List ChangeGroup)
    (co nw : List String) (ol c : Nat) (hco : co ≠ [])
    (h : ∀ l ∈ rem, strStarts l "-" = true) :
    List.foldl groupStep ⟨gs, co, nw, ol, c⟩ rem =
      ⟨gs, co ++ rem.map (·.drop 1), nw, ol, c + rem.length⟩ := by
  induction rem generalizing co c with
  | nil => simp
  | cons x xs ih =>
    obtain ⟨t, ht⟩ := starts_head_data x "-" '-' rfl (h x (List.mem_cons_self x xs))
    rw [List.foldl_cons]
    rw [show groupStep ⟨gs, co, nw, ol, c⟩ x =
        ⟨gs, co ++ [x.drop 1], nw, ol, c + 1⟩ by
      unfold groupStep
      rw [if_neg (by rw [starts_of_head x '-' t ' ' ht " " rfl]; simp),
        if_pos (by rw [starts_of_head x '-' t '-' ht "-" rfl]; rfl),
        if_neg (by simp [hco])]]
    rw [ih (co ++ [x.drop 1]) (c + 1) (by simp) (fun l hl => h l (List.mem_cons_of_mem x hl))]
    simp only [List.map_cons, List.length_cons, List.append_assoc,
      List.singleton_append]
    congr 1
    omega

theorem foldl_groupStep_dash (rem : List String) (gs : List ChangeGroup)
    (ol c : Nat) (hne : rem ≠ [])
    (h : ∀ l ∈ rem, strStarts l "-" = true) :
    List.foldl groupStep ⟨gs, [], [], ol, c⟩ rem =
      ⟨gs, rem.map (·.drop 1), [], c, c + rem.length⟩ := by
  cases rem with
  | nil => exact absurd rfl hne
  | cons x xs =>
    obtain ⟨t, ht⟩ := starts_head_data x "-" '-' rfl (h x (List.mem_cons_self x xs))
    rw [List.foldl_cons]
    rw [show groupStep ⟨gs, [], [], ol, c⟩ x = ⟨gs, [x.drop 1], [], c, c + 1⟩ by
      unfold groupStep
      rw [if_neg (by rw [starts_of_head x '-' t ' ' ht " " rfl]; simp),
        if_pos (by rw [starts_of_head x '-' t '-' ht "-" rfl]; rfl),
        if_pos (by simp)]
      rfl]
    rw [foldl_groupStep_dash_more xs gs [x.drop 1] [] c (c + 1) (by simp)
      (fun l hl => h l (List.mem_cons_of_mem x hl))]
    simp only [List.map_cons, List.length_cons, List.singleton_append]
    congr 1
    omega

theorem foldl_groupStep_plus (add : List String) (gs : List ChangeGroup)
    (co nw : List String) (ol c : Nat)
    (h : ∀ l ∈ add, strStarts l "+" = true) :
    List.foldl groupStep ⟨gs, co, nw, ol, c⟩ add =
      ⟨gs, co, nw ++ add.map (·.drop 1), ol, c⟩ := by
  induction add generalizing nw with
  | nil => simp
  | cons x xs ih =>
    obtain ⟨t, ht⟩ := starts_head_data x "+" '+' rfl (h x (List.mem_cons_self x xs))
    rw [List.foldl_cons]
    rw [show groupStep ⟨gs, co, nw, ol, c⟩ x = ⟨gs, co, nw ++ [x.drop 1], ol, c⟩ by
      unfold groupStep
      rw [if_neg (by rw [starts_of_head x '+' t ' ' ht " " rfl]; simp),
        if_neg (by rw [starts_of_head x '+' t '-' ht "-" rfl]; simp),
        if_pos (by rw [starts_of_head x '+' t '+' ht "+" rfl]; rfl)]]
    rw [ih (nw ++ [x.drop 1]) (fun l hl => h l (List.mem_cons_of_mem x hl))]
    simp [List.append_assoc]

/-- **C5, counterexample.**  A run of `k = 1` context line, `m = 0` removed
lines, `n = 1` added line, then more context, in a hunk with base start 10:
the claim says the group's `old_line` is `10 + 1`, but a pure-insertion
group gets `old_line = 0` (it is only ever set on a removed line). -/
theorem claim_C5_cex :
    split_into_change_groups ⟨10, 2, 10, 3, [" c\n", "+x\n", " d\n"]⟩ =
      [⟨0, [], ["x\n"]⟩] ∧
    (ChangeGroup.mk 0 [] ["x\n"]).old_line ≠ 10 + 1 := ⟨rfl, by decide⟩

/-- **C5, amended.**  For a hunk with base start `s` whose lines are `k`
context lines, then `m ≥ 1` removed lines, then `n` added lines, then one
or more further context lines, the grouper produces exactly one group,
with `old_line = s + k`, the `m` removed contents, and the `n` added
contents.  (For `m = 0` the group is a pure insertion and its `old_line`
is 0, as claim C6 records.) -/
theorem claim_C5_grouping (s oc ns nc : Nat)
    (ctx1 rem add ctx2 : List String)
    (h1 : ∀ l ∈ ctx1, strStarts l " " = true)
    (h2 : ∀ l ∈ rem, strStarts l "-" = true)
    (h3 : ∀ l ∈ add, strStarts l "+" = true)
    (h4 : ∀ l ∈ ctx2, strStarts l " " = true)
    (hm : rem ≠ []) (hc : ctx2 ≠ []) :
    split_into_change_groups ⟨s, oc, ns, nc, ctx1 ++ rem ++ add ++ ctx2⟩ =
      [⟨s + ctx1.length, rem.map (·.drop 1), add.map (·.drop 1)⟩] := by
  unfold split_into_change_groups
  rw [List.foldl_append, List.foldl_append, List.foldl_append]
  rw [foldl_groupStep_ctx ctx1 [] 0 s h1]
  rw [foldl_groupStep_dash rem [] 0 (s + ctx1.length) hm h2]
  rw [foldl_groupStep_plus add [] (rem.map (·.drop 1)) []
    (s + ctx1.length) ((s + ctx1.length) + rem.length) h3]
  cases ctx2 with
  | nil => exact absurd rfl hc
  | cons x xs =>
    rw [List.foldl_cons]
    rw [groupStep_ctx_open _ x (h4 x (List.mem_cons_self x xs))
      (by simp [hm])]
    dsimp only [List.nil_append]
    rw [foldl_groupStep_ctx xs
      [⟨s + ctx1.length, rem.map (·.drop 1), add.map (·.drop 1)⟩]
      0 _ (fun l hl => h4 l (List.mem_cons_of_mem x hl))]
    simp

/-- **C5, witness.** -/
theorem claim_C5_grouping_witness :
    split_into_change_groups ⟨10, 6, 10, 7,
        [" c1\n", " c2\n"] ++ ["-o1\n", "-o2\n"] ++
        ["+n1\n", "+n2\n", "+n3\n"] ++ [" c3\n"]⟩ =
      [⟨10 + ([" c1\n", " c2\n"] : List String).length,
        (["-o1\n", "-o2\n"] : List String).map (·.drop 1),
        (["+n1\n", "+n2\n", "+n3\n"] : List String).map (·.drop 1)⟩] :=
  claim_C5_grouping 10 6 10 7 [" c1\n", " c2\n"] ["-o1\n", "-o2\n"]
    ["+n1\n", "+n2\n", "+n3\n"] [" c3\n"]
    (by decide) (by decide) (by decide) (by decide) (by decide) (by decide)

/-- **C6, code bug.**  The attribute convention fails on a run whose added
line precedes its removed line: for `Hunk(old_start=4,
lines=["+x\n", "-y\n"])` the `-` line arrives while `new_lines` is already
non-empty, so the `old_line = current_old_line` assignment is skipped and
the emitted group has non-empty `old_lines` with `old_line = 0` — although
the `ChangeGroup` dataclass's own comment says `old_line` is the "1-based
line of first '-' in old file (0 if insertion)" (here line 4). -/
theorem claim_C6_bug :
    split_into_change_groups ⟨4, 1, 4, 1, ["+x\n", "-y\n"]⟩ =
      [⟨0, ["y\n"], ["x\n"]⟩] ∧
    (ChangeGroup.mk 0 ["y\n"] ["x\n"]).old_lines ≠ [] ∧
    (ChangeGroup.mk 0 ["y\n"] ["x\n"]).old_line = 0 :=
  ⟨rfl, by decide, rfl⟩
/-! ## Nat-index characterisation of the Python slices -/

theorem pyNorm_natCast (len i : Nat) : pyNorm len (i : Int) = min len i := by
  unfold pyNorm
  rw [if_neg (by omega)]
  simp

theorem take_min_left (l : List String) (i : Nat) :
    l.take (min l.length i) = l.take i := by
  rcases le_total i l.length with h | h
  · rw [Nat.min_eq_right h]
  · rw [Nat.min_eq_left h, List.take_length, List.take_of_length_le h]

theorem drop_min_left (l : List String) (i : Nat) :
    l.drop (min l.length i) = l.drop i := by
  rcases le_total i l.length with h | h
  · rw [Nat.min_eq_right h]
  · rw [Nat.min_eq_left h, List.drop_length, List.drop_of_length_le h]

theorem pySetSlice_nat (l x : List String) (i j : Nat) (hij : i ≤ j) :
    pySetSlice l (i : Int) (j : Int) x = l.take i ++ x ++ l.drop j := by
  unfold pySetSlice
  dsimp only
  rw [pyNorm_natCast, pyNorm_natCast]
  have h1 : max (min l.length i) (min l.length j) = min l.length j := by omega
  rw [h1, take_min_left, drop_min_left]

theorem pyGetSlice_nat (l : List String) (i j : Nat) :
    pyGetSlice l (i : Int) (j : Int) = (l.drop i).take (j - i) := by
  unfold pyGetSlice
  dsimp only
  rw [pyNorm_natCast, pyNorm_natCast]
  rcases le_total i l.length with hi | hi
  · rw [Nat.min_eq_right hi]
    rcases le_total j l.length with hj | hj
    · rw [Nat.min_eq_right hj]
    · rw [Nat.min_eq_left hj]
      rw [List.take_of_length_le (by rw [List.length_drop]),
        List.take_of_length_le (by rw [List.length_drop]; omega)]
  · rw [Nat.min_eq_left hi, List.drop_length, List.drop_of_length_le hi]
    simp

/-! ## Claim C7: stable sorting and same-anchor insertions -/

theorem sortedLE_of_cons {b : UpdateHunk} {l : List UpdateHunk}
    (h : List.Pairwise (fun a b => a.old_line ≤ b.old_line) (b :: l)) :
    List.Pairwise (fun a b => a.old_line ≤ b.old_line) l :=
  (List.pairwise_cons.mp h).2

theorem filter_eq_nil_of_lt (k : Nat) (b : UpdateHunk) (l : List UpdateHunk)
    (hs : List.Pairwise (fun a b => a.old_line ≤ b.old_line) (b :: l))
    (hk : k < b.old_line) :
    (b :: l).filter (fun h => h.old_line == k) = [] := by
  rw [List.filter_eq_nil_iff]
  intro a ha
  have hba : b.old_line ≤ a.old_line := by
    rcases List.mem_cons.mp ha with rfl | ha
    · exact le_refl _
    · exact (List.pairwise_cons.mp hs).1 a ha
  simp only [beq_iff_eq]
  omega

theorem mem_insertHunk (h x : UpdateHunk) (l : List UpdateHunk) :
    x ∈ insertHunk h l ↔ x = h ∨ x ∈ l := by
  induction l with
  | nil => simp [insertHunk]
  | cons b bs ih =>
    unfold insertHunk
    split
    · simp [or_comm, or_assoc, or_left_comm]
    · simp [ih, or_comm, or_assoc, or_left_comm]

theorem sorted_insertHunk (h : UpdateHunk) (l : List UpdateHunk)
    (hs : List.Pairwise (fun a b => a.old_line ≤ b.old_line) l) :
    List.Pairwise (fun a b => a.old_line ≤ b.old_line) (insertHunk h l) := by
  induction l with
  | nil => simp [insertHunk]
  | cons b bs ih =>
    unfold insertHunk
    split
    · rename_i hlt
      rw [List.pairwise_cons]
      refine ⟨?_, hs⟩
      intro a ha
      have hba : b.old_line ≤ a.old_line := by
        rcases List.mem_cons.mp ha with rfl | ha
        · exact le_refl _
        · exact (List.pairwise_cons.mp hs).1 a ha
      omega
    · rename_i hge
      rw [List.pairwise_cons]
      obtain ⟨hb, hbs⟩ := List.pairwise_cons.mp hs
      refine ⟨?_, ih hbs⟩
      intro a ha
      rcases (mem_insertHunk h a bs).mp ha with rfl | ha
      · omega
      · exact hb a ha

theorem filter_insertHunk (h : UpdateHunk) (l : List UpdateHunk) (k : Nat)
    (hs : List.Pairwise (fun a b => a.old_line ≤ b.old_line) l) :
    (insertHunk h l).filter (fun x => x.old_line == k) =
      l.filter (fun x => x.old_line == k) ++
        (if h.old_line = k then [h] else []) := by
  induction l with
  | nil =>
    by_cases hk : h.old_line = k <;> simp [insertHunk, List.filter_cons, hk]
  | cons b bs ih =>
    unfold insertHunk
    split
    · rename_i hlt
      by_cases hk : h.old_line = k
      · have hnil : (b :: bs).filter (fun x => x.old_line == k) = [] :=
          filter_eq_nil_of_lt k b bs hs (by omega)
        rw [hnil, List.filter_cons, hnil]
        simp [hk]
      · simp [List.filter_cons, hk]
    · rename_i hge
      rw [List.filter_cons, List.filter_cons, ih (sortedLE_of_cons hs)]
      cases hb : (b.old_line == k) <;> simp

theorem sort_hunks_stable (hs : List UpdateHunk) (k : Nat) :
    (sort_hunks hs).filter (fun h => h.old_line == k) =
      hs.filter (fun h => h.old_line == k) := by
  have key : ∀ (l acc : List UpdateHunk),
      List.Pairwise (fun a b => a.old_line ≤ b.old_line) acc →
      (List.foldl (fun acc h => insertHunk h acc) acc l).filter
          (fun h => h.old_line == k) =
        acc.filter (fun h => h.old_line == k) ++
          l.filter (fun h => h.old_line == k) := by
    intro l
    induction l with
    | nil => intro acc _; simp
    | cons x xs ih =>
      intro acc hacc
      rw [List.foldl_cons, ih _ (sorted_insertHunk x acc hacc),
        filter_insertHunk x acc k hacc, List.filter_cons]
      cases hx : (x.old_line == k)
      · have : ¬ x.old_line = k := by simpa using hx
        simp [this]
      · have : x.old_line = k := by simpa using hx
        simp [this]
  unfold sort_hunks
  rw [key hs [] List.Pairwise.nil]
  simp

theorem apply_two_insertions (base : List String) (s : Nat)
    (n1 n2 : List String) (h1 : 1 ≤ s) :
    apply_hunks base [⟨s, [], n1⟩, ⟨s, [], n2⟩] =
      .ok (base.take (s - 1) ++ n1 ++ n2 ++ base.drop (s - 1)) := by
  have hc1 : ((s : Int) + 0 - 1) = ((s - 1 : Nat) : Int) := by omega
  have hstep1 : applyStep (base, 0) ⟨s, [], n1⟩ =
      .ok (base.take (s - 1) ++ n1 ++ base.drop (s - 1), (n1.length : Int)) := by
    unfold applyStep
    rw [if_pos (by simp)]
    dsimp only
    rw [hc1, pySetSlice_nat base n1 (s - 1) (s - 1) (le_refl _)]
    norm_num
  have hc2 : ((s : Int) + (n1.length : Int) - 1) =
      ((s - 1 + n1.length : Nat) : Int) := by omega
  set l1 := base.take (s - 1) ++ n1 ++ base.drop (s - 1) with hl1
  have hstep2 : applyStep (l1, (n1.length : Int)) ⟨s, [], n2⟩ =
      .ok (l1.take (s - 1 + n1.length) ++ n2 ++ l1.drop (s - 1 + n1.length),
        ((n1.length : Int) + (n2.length : Int))) := by
    unfold applyStep
    rw [if_pos (by simp)]
    dsimp only
    rw [hc2, pySetSlice_nat l1 n2 (s - 1 + n1.length) (s - 1 + n1.length) (le_refl _)]
  have hsplit : l1.take (s - 1 + n1.length) ++ n2 ++ l1.drop (s - 1 + n1.length) =
      base.take (s - 1) ++ n1 ++ n2 ++ base.drop (s - 1) := by
    rcases le_total (s - 1) base.length with hsl | hsl
    · have hA : (base.take (s - 1) ++ n1).length = s - 1 + n1.length := by
        rw [List.length_append, List.length_take, Nat.min_eq_left hsl]
      rw [hl1, List.append_assoc (base.take (s - 1)) n1 (base.drop (s - 1))]
      rw [← List.append_assoc (base.take (s - 1)) n1 (base.drop (s - 1))]
      rw [show s - 1 + n1.length = (base.take (s - 1) ++ n1).length from hA.symm]
      rw [List.take_left, List.drop_left]
    · have hdrop : base.drop (s - 1) = [] := List.drop_of_length_le hsl
      have htake : base.take (s - 1) = base := List.take_of_length_le hsl
      rw [hl1, hdrop, htake, List.append_nil]
      have hlen : (base ++ n1).length ≤ s - 1 + n1.length := by
        rw [List.length_append]; omega
      rw [List.take_of_length_le hlen, List.drop_of_length_le hlen,
        List.append_nil]
  have hred1 : applyLoopSt (base, 0) [⟨s, [], n1⟩, ⟨s, [], n2⟩] =
      applyLoopSt (l1, (n1.length : Int)) [⟨s, [], n2⟩] := by
    have e1 : applyLoopSt (base, 0) [⟨s, [], n1⟩, ⟨s, [], n2⟩] =
        match applyStep (base, 0) ⟨s, [], n1⟩ with
        | .error e => .error e
        | .ok st' => applyLoopSt st' [⟨s, [], n2⟩] := rfl
    rw [e1, hstep1]
  have hred2 : applyLoopSt (l1, (n1.length : Int)) [⟨s, [], n2⟩] =
      .ok (l1.take (s - 1 + n1.length) ++ n2 ++ l1.drop (s - 1 + n1.length),
        ((n1.length : Int) + (n2.length : Int))) := by
    have e2 : applyLoopSt (l1, (n1.length : Int)) [⟨s, [], n2⟩] =
        match applyStep (l1, (n1.length : Int)) ⟨s, [], n2⟩ with
        | .error e => .error e
        | .ok st' => applyLoopSt st' [] := rfl
    rw [e2, hstep2]
    rfl
  unfold apply_hunks
  rw [hred1, hred2, hsplit]
  rfl

/-- **C7, counterexample.**  The claim fails at the shared anchor 0 — the
value `split_into_change_groups` assigns to every pure insertion, so
`@@old 0` pairs are the pipeline's normal output.  Stable sorting keeps the
two records in document order, and replay succeeds, but the later record's
`new_lines` land *before* the earlier record's: the first insertion splices
at index `0 + 0 - 1 = -1`, which Python's negative-index normalization
places before the *last* base line, and the second, with offset 1, splices
at index `0 + 1 - 1 = 0`, the start of the list.  From base
`["a\n", "b\n"]` the result is `["y\n", "a\n", "x\n", "b\n"]`: the earlier
record's line `"x\n"` never precedes the later record's line `"y\n"`
anywhere in the output, so document order is not preserved. -/
theorem claim_C7_cex :
    (sort_hunks [⟨0, [], ["x\n"]⟩, ⟨0, [], ["y\n"]⟩] =
      [⟨0, [], ["x\n"]⟩, ⟨0, [], ["y\n"]⟩]) ∧
    (apply_hunks ["a\n", "b\n"] [⟨0, [], ["x\n"]⟩, ⟨0, [], ["y\n"]⟩] =
      .ok ["y\n", "a\n", "x\n", "b\n"]) ∧
    ¬ ∃ pre mid suf : List String,
      (["y\n", "a\n", "x\n", "b\n"] : List String) =
        pre ++ "x\n" :: (mid ++ "y\n" :: suf) := by
  refine ⟨by decide, rfl, ?_⟩
  rintro ⟨pre, mid, suf, h⟩
  rcases pre with _ | ⟨p1, _ | ⟨p2, _ | ⟨p3, pre⟩⟩⟩ <;>
    simp only [List.nil_append, List.cons_append] at h
  · injection h with e1 _
    exact absurd e1 (by decide)
  · injection h with _ h2
    injection h2 with e2 _
    exact absurd e2 (by decide)
  · injection h with _ h2
    injection h2 with _ h3
    injection h3 with _ h4
    rcases mid with _ | ⟨m1, mid⟩ <;>
      simp only [List.nil_append, List.cons_append] at h4
    · injection h4 with e4 _
      exact absurd e4 (by decide)
    · injection h4 with _ h5
      have hlen := congrArg List.length h5
      simp only [List.length_nil, List.length_append, List.length_cons] at hlen
      omega
  · injection h with _ h2
    injection h2 with _ h3
    injection h3 with _ h4
    rcases pre with _ | ⟨q1, pre⟩ <;>
      simp only [List.nil_append, List.cons_append] at h4
    · injection h4 with e4 _
      exact absurd e4 (by decide)
    · injection h4 with _ h5
      have hlen := congrArg List.length h5
      simp only [List.length_nil, List.length_append, List.length_cons] at hlen
      omega

/-- **C7, amended.**  Same-position insertions apply in document order
*provided the shared anchor is at least 1*: (i) the model of Python's
stable `sorted` preserves the relative order of records with any given
`old_line` key, so two pure insertions with the same anchor keep their
document order through `sort_hunks` (shown both as the general filter law
and on the two-record document itself); and (ii) for an anchor `s ≥ 1`,
replaying them places the earlier record's `new_lines` before the later
record's, both at the shared anchor.  The restriction `1 ≤ s` is forced:
at anchor 0 the splice index `0 + offset - 1` is negative for the first
insertion and the order inverts (see the counterexample). -/
theorem claim_C7_same_anchor (hs : List UpdateHunk) (k : Nat)
    (base : List String) (s : Nat) (n1 n2 : List String) (h1 : 1 ≤ s) :
    ((sort_hunks hs).filter (fun h => h.old_line == k) =
      hs.filter (fun h => h.old_line == k)) ∧
    (sort_hunks [⟨s, [], n1⟩, ⟨s, [], n2⟩] = [⟨s, [], n1⟩, ⟨s, [], n2⟩]) ∧
    (apply_hunks base [⟨s, [], n1⟩, ⟨s, [], n2⟩] =
      .ok (base.take (s - 1) ++ n1 ++ n2 ++ base.drop (s - 1))) := by
  refine ⟨sort_hunks_stable hs k, ?_, apply_two_insertions base s n1 n2 h1⟩
  unfold sort_hunks
  simp [insertHunk, lt_irrefl]

/-- **C7, witness.** -/
theorem claim_C7_same_anchor_witness :
    ((sort_hunks [⟨2, [], ["x\n"]⟩]).filter (fun h => h.old_line == 2) =
      ([⟨2, [], ["x\n"]⟩] : List UpdateHunk).filter (fun h => h.old_line == 2)) ∧
    (sort_hunks [⟨2, [], ["x\n"]⟩, ⟨2, [], ["y\n"]⟩] =
      [⟨2, [], ["x\n"]⟩, ⟨2, [], ["y\n"]⟩]) ∧
    (apply_hunks ["a\n", "b\n"] [⟨2, [], ["x\n"]⟩, ⟨2, [], ["y\n"]⟩] =
      .ok ((["a\n", "b\n"] : List String).take 1 ++ ["x\n"] ++ ["y\n"] ++
        (["a\n", "b\n"] : List String).drop 1)) :=
  claim_C7_same_anchor [⟨2, [], ["x\n"]⟩] 2 ["a\n", "b\n"] 2 ["x\n"] ["y\n"]
    (by decide)
/-! ## Claim C2: machinery for the patch replayer -/

theorem chainValid_lower : ∀ (hs : List UpdateHunk) (t : Nat),
    chainValid t hs → ∀ h ∈ hs, t + 1 ≤ h.old_line := by
  intro hs
  induction hs with
  | nil => intro t _ h hm; simp at hm
  | cons a rest ih =>
    intro t hc h hm
    obtain ⟨h1, h2⟩ := hc
    rcases List.mem_cons.mp hm with rfl | hm
    · exact h1
    · have := ih (a.old_line - 1 + a.old_lines.length) h2 h hm
      omega

theorem hunksDelta_nil : hunksDelta [] = 0 := rfl

theorem hunksDelta_cons (h : UpdateHunk) (hs : List UpdateHunk) :
    hunksDelta (h :: hs) = hunkDelta h + hunksDelta hs := by
  simp [hunksDelta]

theorem pySetSlice_beyond (l x : List String) (idx : Int)
    (h : (l.length : Int) ≤ idx) :
    pySetSlice l idx idx x = l ++ x := by
  unfold pySetSlice pyNorm
  dsimp only
  rw [if_neg (by omega)]
  have h1 : min l.length idx.toNat = l.length := by omega
  rw [h1, max_self, List.take_length, List.drop_length, List.append_nil]

/-- Flattened new lines of a run of insertions account for its delta. -/
theorem flatMap_length_insertions : ∀ (hs : List UpdateHunk),
    (∀ h ∈ hs, h.old_lines = []) →
    ((hs.flatMap (·.new_lines)).length : Int) = hunksDelta hs := by
  intro hs
  induction hs with
  | nil => intro _; rfl
  | cons h rest ih =>
    intro hall
    rw [List.flatMap_cons, hunksDelta_cons]
    rw [List.length_append]
    push_cast
    rw [ih (fun h' hm => hall h' (List.mem_cons_of_mem h hm))]
    unfold hunkDelta
    rw [hall h (List.mem_cons_self h rest)]
    simp

/-- Once every remaining record is an insertion aimed at or beyond the end
of the current result, each one just appends its new lines. -/
theorem applyLoopSt_tail_insertions : ∀ (hs : List UpdateHunk)
    (cur : List String) (off : Int),
    (∀ h ∈ hs, h.old_lines = []) →
    (∀ h ∈ hs, (cur.length : Int) ≤ (h.old_line : Int) + off - 1) →
    applyLoopSt (cur, off) hs =
      .ok (cur ++ hs.flatMap (·.new_lines), off + hunksDelta hs) := by
  intro hs
  induction hs with
  | nil => intro cur off _ _; simp [applyLoopSt, hunksDelta_nil]
  | cons h rest ih =>
    intro cur off hall hidx
    have he : h.old_lines = [] := hall h (List.mem_cons_self h rest)
    have hstep : applyStep (cur, off) h =
        .ok (cur ++ h.new_lines, off + h.new_lines.length) := by
      unfold applyStep
      rw [if_pos (by simp [he])]
      dsimp only
      rw [pySetSlice_beyond cur h.new_lines ((h.old_line : Int) + off - 1)
        (hidx h (List.mem_cons_self h rest))]
    have e1 : applyLoopSt (cur, off) (h :: rest) =
        match applyStep (cur, off) h with
        | .error e => .error e
        | .ok st' => applyLoopSt st' rest := rfl
    rw [e1, hstep]
    show applyLoopSt (cur ++ h.new_lines, off + h.new_lines.length) rest = _
    rw [ih (cur ++ h.new_lines) (off + h.new_lines.length)
      (fun h' hm => hall h' (List.mem_cons_of_mem h hm))
      (by
        intro h' hm
        have := hidx h' (List.mem_cons_of_mem h hm)
        rw [List.length_append]
        push_cast
        omega)]
    rw [List.flatMap_cons, hunksDelta_cons]
    unfold hunkDelta
    rw [he]
    simp [List.append_assoc, add_assoc]

theorem applySpec_nil_insertions : ∀ (hs : List UpdateHunk) (t : Nat),
    (∀ h ∈ hs, h.old_lines = []) →
    applySpec [] t hs = hs.flatMap (·.new_lines) := by
  intro hs
  induction hs with
  | nil => intro t _; rfl
  | cons h rest ih =>
    intro t hall
    have he : h.old_lines = [] := hall h (List.mem_cons_self h rest)
    show [].take _ ++ h.new_lines ++ applySpec ([].drop _) _ rest = _
    rw [List.take_nil, List.drop_nil, List.nil_append, List.flatMap_cons]
    rw [ih _ (fun h' hm => hall h' (List.mem_cons_of_mem h hm))]
/-- The replay loop computes `applySpec`, threading the offset invariant
`offset = done.length - t` (lines already produced minus base lines
consumed). -/
theorem applyLoopSt_spec : ∀ (hunks : List UpdateHunk) (done rest : List String)
    (t : Nat), chainValid t hunks → (∀ h ∈ hunks, relMatch rest t h) →
    applyLoopSt (done ++ rest, (done.length : Int) - t) hunks =
      .ok (done ++ applySpec rest t hunks,
        ((done.length : Int) - t) + hunksDelta hunks) := by
  intro hunks
  induction hunks with
  | nil =>
    intro done rest t _ _
    simp [applyLoopSt, applySpec, hunksDelta_nil]
  | cons h hs ih =>
    intro done rest t hchain hmatch
    obtain ⟨ht1, hchain'⟩ := hchain
    have hcast : (h.old_line : Int) + ((done.length : Int) - t) - 1 =
        ((done.length + (h.old_line - 1 - t) : Nat) : Int) := by
      push_cast
      omega
    have hspec : applySpec rest t (h :: hs) =
        rest.take (h.old_line - 1 - t) ++ h.new_lines ++
          applySpec (rest.drop (h.old_line - 1 - t + h.old_lines.length))
            (h.old_line - 1 + h.old_lines.length) hs := rfl
    have e1 : applyLoopSt (done ++ rest, (done.length : Int) - t) (h :: hs) =
        match applyStep (done ++ rest, (done.length : Int) - t) h with
        | .error e => .error e
        | .ok st' => applyLoopSt st' hs := rfl
    have hmatch' : ∀ h' ∈ hs,
        relMatch (rest.drop (h.old_line - 1 - t + h.old_lines.length))
          (h.old_line - 1 + h.old_lines.length) h' := by
      intro h' hm' hne'
      have horig := hmatch h' (List.mem_cons_of_mem h hm') hne'
      have hs' := chainValid_lower hs _ hchain' h' hm'
      rw [List.drop_drop]
      rw [show h.old_line - 1 - t + h.old_lines.length +
          (h'.old_line - 1 - (h.old_line - 1 + h.old_lines.length)) =
          h'.old_line - 1 - t from by omega]
      exact horig
    by_cases he : h.old_lines = []
    · -- pure insertion
      have hm0 : h.old_lines.length = 0 := by rw [he]; rfl
      have hstep : applyStep (done ++ rest, (done.length : Int) - t) h =
          .ok ((done ++ rest.take (h.old_line - 1 - t)) ++ h.new_lines ++
              rest.drop (h.old_line - 1 - t),
            ((done.length : Int) - t) + h.new_lines.length) := by
        unfold applyStep
        rw [if_pos (by simp [he])]
        dsimp only
        rw [hcast, pySetSlice_nat (done ++ rest) h.new_lines
          (done.length + (h.old_line - 1 - t))
          (done.length + (h.old_line - 1 - t)) (le_refl _)]
        rw [List.take_append, List.drop_append]
      by_cases hkr : h.old_line - 1 - t ≤ rest.length
      · -- insertion within the current remainder
        rw [e1, hstep]
        show applyLoopSt ((done ++ rest.take (h.old_line - 1 - t) ++ h.new_lines)
            ++ rest.drop (h.old_line - 1 - t),
          ((done.length : Int) - t) + h.new_lines.length) hs = _
        have hlen' : ((done ++ rest.take (h.old_line - 1 - t) ++
            h.new_lines).length : Int) =
            (done.length : Int) + (h.old_line - 1 - t) + h.new_lines.length := by
          simp only [List.length_append, List.length_take]
          rw [Nat.min_eq_left hkr]
          push_cast
          omega
        have hoff : ((done.length : Int) - t) + h.new_lines.length =
            (((done ++ rest.take (h.old_line - 1 - t) ++
              h.new_lines).length : Int) -
              ((h.old_line - 1 + h.old_lines.length : Nat) : Int)) := by
          rw [hlen']
          omega
        rw [hoff]
        rw [show rest.drop (h.old_line - 1 - t) =
          rest.drop (h.old_line - 1 - t + h.old_lines.length) from by rw [hm0, Nat.add_zero]]
        rw [ih (done ++ rest.take (h.old_line - 1 - t) ++ h.new_lines)
          (rest.drop (h.old_line - 1 - t + h.old_lines.length))
          (h.old_line - 1 + h.old_lines.length) hchain' hmatch']
        rw [hspec, hunksDelta_cons]
        rw [← hoff]
        congr 1
        congr 1
        · simp [List.append_assoc]
        · dsimp only
          unfold hunkDelta
          rw [hm0]
          push_cast
          ring
      · -- insertion beyond the end of the remainder
        push_neg at hkr
        have hall : ∀ h' ∈ hs, h'.old_lines = [] := by
          intro h' hm'
          by_contra hne'
          have horig := hmatch h' (List.mem_cons_of_mem h hm') hne'
          have hs' := chainValid_lower hs _ hchain' h' hm'
          have hdropnil : rest.drop (h'.old_line - 1 - t) = [] :=
            List.drop_of_length_le (by omega)
          rw [hdropnil, List.take_nil] at horig
          exact hne' horig.symm
        have htk : rest.take (h.old_line - 1 - t) = rest :=
          List.take_of_length_le (by omega)
        have hdr : rest.drop (h.old_line - 1 - t) = [] :=
          List.drop_of_length_le (by omega)
        rw [e1, hstep, htk, hdr, List.append_nil]
        show applyLoopSt (done ++ rest ++ h.new_lines,
          ((done.length : Int) - t) + h.new_lines.length) hs = _
        rw [applyLoopSt_tail_insertions hs (done ++ rest ++ h.new_lines)
          (((done.length : Int) - t) + h.new_lines.length) hall
          (by
            intro h' hm'
            have hs' := chainValid_lower hs _ hchain' h' hm'
            simp only [List.length_append]
            push_cast [hm0] at hs' ⊢
            omega)]
        rw [hspec, htk, hunksDelta_cons]
        rw [show rest.drop (h.old_line - 1 - t + h.old_lines.length) = [] from by
          rw [hm0, Nat.add_zero]; exact hdr]
        rw [applySpec_nil_insertions hs _ hall]
        congr 1
        congr 1
        · simp [List.append_assoc]
        · dsimp only
          unfold hunkDelta
          rw [hm0]
          push_cast
          ring
    · -- replacement or deletion
      have hmh := hmatch h (List.mem_cons_self h hs) he
      have hml : 0 < h.old_lines.length := List.length_pos.mpr he
      have hkm : h.old_line - 1 - t + h.old_lines.length ≤ rest.length := by
        have hlen : ((rest.drop (h.old_line - 1 - t)).take
            h.old_lines.length).length = h.old_lines.length := by rw [hmh]
        rw [List.length_take, List.length_drop] at hlen
        omega
      have hstep : applyStep (done ++ rest, (done.length : Int) - t) h =
          .ok ((done ++ rest.take (h.old_line - 1 - t)) ++ h.new_lines ++
              rest.drop (h.old_line - 1 - t + h.old_lines.length),
            ((done.length : Int) - t) + h.new_lines.length -
              h.old_lines.length) := by
        unfold applyStep
        rw [if_neg (by simp [he])]
        dsimp only
        rw [hcast]
        rw [show ((done.length + (h.old_line - 1 - t) : Nat) : Int) +
            (h.old_lines.length : Int) =
            ((done.length + (h.old_line - 1 - t) + h.old_lines.length : Nat) : Int)
          from by push_cast; ring]
        rw [pyGetSlice_nat]
        rw [show done.length + (h.old_line - 1 - t) + h.old_lines.length -
            (done.length + (h.old_line - 1 - t)) = h.old_lines.length
          from by omega]
        rw [List.drop_append, hmh, if_pos rfl]
        rw [pySetSlice_nat _ _ _ _ (by omega)]
        rw [List.take_append]
        rw [show done.length + (h.old_line - 1 - t) + h.old_lines.length =
            done.length + (h.old_line - 1 - t + h.old_lines.length)
          from by omega]
        rw [List.drop_append]
      rw [e1, hstep]
      show applyLoopSt ((done ++ rest.take (h.old_line - 1 - t) ++ h.new_lines)
          ++ rest.drop (h.old_line - 1 - t + h.old_lines.length),
        ((done.length : Int) - t) + h.new_lines.length - h.old_lines.length) hs = _
      have hlen' : ((done ++ rest.take (h.old_line - 1 - t) ++
          h.new_lines).length : Int) =
          (done.length : Int) + (h.old_line - 1 - t) + h.new_lines.length := by
        simp only [List.length_append, List.length_take]
        rw [Nat.min_eq_left (by omega : h.old_line - 1 - t ≤ rest.length)]
        push_cast
        omega
      have hoff : ((done.length : Int) - t) + h.new_lines.length -
          h.old_lines.length =
          (((done ++ rest.take (h.old_line - 1 - t) ++
            h.new_lines).length : Int) -
            ((h.old_line - 1 + h.old_lines.length : Nat) : Int)) := by
        rw [hlen']
        omega
      rw [hoff]
      rw [ih (done ++ rest.take (h.old_line - 1 - t) ++ h.new_lines)
        (rest.drop (h.old_line - 1 - t + h.old_lines.length))
        (h.old_line - 1 + h.old_lines.length) hchain' hmatch']
      rw [hspec, hunksDelta_cons]
      rw [← hoff]
      congr 1
      congr 1
      · simp [List.append_assoc]
      · dsimp only
        unfold hunkDelta
        ring
/-- Matching transfers from the full remainder to the remainder after one
record's prefix and range are consumed. -/
theorem relMatch_tail (h : UpdateHunk) (hs : List UpdateHunk)
    (rest : List String) (t : Nat) (ht1 : t + 1 ≤ h.old_line)
    (hchain' : chainValid (h.old_line - 1 + h.old_lines.length) hs)
    (hmatch : ∀ h' ∈ hs, relMatch rest t h') :
    ∀ h' ∈ hs, relMatch (rest.drop (h.old_line - 1 - t + h.old_lines.length))
      (h.old_line - 1 + h.old_lines.length) h' := by
  intro h' hm' hne'
  have horig := hmatch h' hm' hne'
  have hs' := chainValid_lower hs _ hchain' h' hm'
  rw [List.drop_drop]
  rw [show h.old_line - 1 - t + h.old_lines.length +
      (h'.old_line - 1 - (h.old_line - 1 + h.old_lines.length)) =
      h'.old_line - 1 - t from by omega]
  exact horig

theorem offsetAt_cons (h : UpdateHunk) (hs : List UpdateHunk) (p : Nat) :
    offsetAt (h :: hs) p =
      (if h.old_lines.isEmpty then
        (if h.old_line ≤ p then (h.new_lines.length : Int) else 0)
      else
        (if h.old_line + h.old_lines.length ≤ p then hunkDelta h else 0)) +
      offsetAt hs p := by
  simp [offsetAt]

theorem offsetAt_eq_zero (hs : List UpdateHunk) (p : Nat)
    (h : ∀ h' ∈ hs, p < h'.old_line) : offsetAt hs p = 0 := by
  induction hs with
  | nil => rfl
  | cons a l ih =>
    rw [offsetAt_cons, ih (fun h' hm => h h' (List.mem_cons_of_mem a hm))]
    have ha := h a (List.mem_cons_self a l)
    rw [add_zero]
    split
    · rw [if_neg (by omega)]
    · rw [if_neg (by omega)]

/-- Length of the reference rebuild. -/
theorem applySpec_length : ∀ (hunks : List UpdateHunk) (rest : List String)
    (t : Nat), chainValid t hunks → (∀ h ∈ hunks, relMatch rest t h) →
    ((applySpec rest t hunks).length : Int) = rest.length + hunksDelta hunks := by
  intro hunks
  induction hunks with
  | nil => intro rest t _ _; simp [applySpec, hunksDelta_nil]
  | cons h hs ih =>
    intro rest t hchain hmatch
    obtain ⟨ht1, hchain'⟩ := hchain
    have hrec := ih (rest.drop (h.old_line - 1 - t + h.old_lines.length))
      (h.old_line - 1 + h.old_lines.length) hchain'
      (relMatch_tail h hs rest t ht1 hchain' (fun h' hm =>
        hmatch h' (List.mem_cons_of_mem h hm)))
    have hspec : applySpec rest t (h :: hs) =
        rest.take (h.old_line - 1 - t) ++ h.new_lines ++
          applySpec (rest.drop (h.old_line - 1 - t + h.old_lines.length))
            (h.old_line - 1 + h.old_lines.length) hs := rfl
    rw [hspec, hunksDelta_cons]
    simp only [List.length_append, List.length_take]
    rw [List.length_drop] at hrec
    by_cases he : h.old_lines = []
    · have hm0 : h.old_lines.length = 0 := by rw [he]; rfl
      unfold hunkDelta
      push_cast
      omega
    · have hml : 0 < h.old_lines.length := List.length_pos.mpr he
      have hmh := hmatch h (List.mem_cons_self h hs) he
      have hkm : h.old_line - 1 - t + h.old_lines.length ≤ rest.length := by
        have hlen : ((rest.drop (h.old_line - 1 - t)).take
            h.old_lines.length).length = h.old_lines.length := by rw [hmh]
        rw [List.length_take, List.length_drop] at hlen
        omega
      unfold hunkDelta
      push_cast
      omega

/-- Untouched base lines appear in the reference rebuild at their
offset-adjusted positions. -/
theorem applySpec_untouched : ∀ (hunks : List UpdateHunk) (rest : List String)
    (t : Nat), chainValid t hunks → (∀ h ∈ hunks, relMatch rest t h) →
    ∀ p : Nat, t < p → p ≤ t + rest.length → coveredBy hunks p = false →
    0 ≤ (p : Int) - 1 - t + offsetAt hunks p ∧
    (applySpec rest t hunks)[((p : Int) - 1 - t + offsetAt hunks p).toNat]? =
      rest[p - 1 - t]? := by
  intro hunks
  induction hunks with
  | nil =>
    intro rest t _ _ p hp1 hp2 _
    have h0 : offsetAt [] p = 0 := rfl
    rw [h0]
    constructor
    · omega
    · rw [show ((p : Int) - 1 - ↑t + 0).toNat = p - 1 - t from by omega]
      rfl
  | cons h hs ih =>
    intro rest t hchain hmatch p hp1 hp2 hcov
    obtain ⟨ht1, hchain'⟩ := hchain
    simp only [coveredBy, List.any_cons, Bool.or_eq_false_iff] at hcov
    have hcov2 : coveredBy hs p = false := hcov.2
    have hspec : applySpec rest t (h :: hs) =
        rest.take (h.old_line - 1 - t) ++ h.new_lines ++
          applySpec (rest.drop (h.old_line - 1 - t + h.old_lines.length))
            (h.old_line - 1 + h.old_lines.length) hs := rfl
    by_cases hp : p < h.old_line
    · -- the line sits in the kept prefix before this record
      have hoffz : offsetAt hs p = 0 := by
        apply offsetAt_eq_zero
        intro h' hm'
        have := chainValid_lower hs _ hchain' h' hm'
        omega
      have hoff0 : offsetAt (h :: hs) p = 0 := by
        rw [offsetAt_cons, hoffz, add_zero]
        split
        · rw [if_neg (by omega)]
        · rw [if_neg (by omega)]
      rw [hoff0]
      constructor
      · omega
      · rw [show ((p : Int) - 1 - ↑t + 0).toNat = p - 1 - t from by omega]
        rw [hspec]
        have hidx1 : p - 1 - t < (rest.take (h.old_line - 1 - t)).length := by
          rw [List.length_take]
          omega
        rw [List.getElem?_append_left
          (by rw [List.length_append]; omega :
            p - 1 - t < (rest.take (h.old_line - 1 - t) ++ h.new_lines).length)]
        rw [List.getElem?_append_left hidx1]
        rw [List.getElem?_take]
        rw [if_pos (by rw [List.length_take] at hidx1; omega)]
    · -- the line sits at or after this record's range
      push_neg at hp
      have hpm : h.old_line + h.old_lines.length ≤ p := by
        by_cases he : h.old_lines = []
        · have hm0 : h.old_lines.length = 0 := by rw [he]; rfl
          omega
        · have hne : h.old_lines.isEmpty = false := by simp [he]
          have h1 := hcov.1
          rw [hne] at h1
          simp only [Bool.not_false, Bool.true_and, Bool.and_eq_false_iff,
            decide_eq_false_iff_not] at h1
          rcases h1 with h1 | h1
          · omega
          · omega
      have hkm : h.old_line - 1 - t + h.old_lines.length ≤ rest.length := by
        by_cases he : h.old_lines = []
        · have hm0 : h.old_lines.length = 0 := by rw [he]; rfl
          omega
        · have hml : 0 < h.old_lines.length := List.length_pos.mpr he
          have hmh := hmatch h (List.mem_cons_self h hs) he
          have hlen : ((rest.drop (h.old_line - 1 - t)).take
              h.old_lines.length).length = h.old_lines.length := by rw [hmh]
          rw [List.length_take, List.length_drop] at hlen
          omega
      have hrec := ih (rest.drop (h.old_line - 1 - t + h.old_lines.length))
        (h.old_line - 1 + h.old_lines.length) hchain'
        (relMatch_tail h hs rest t ht1 hchain' (fun h' hm =>
          hmatch h' (List.mem_cons_of_mem h hm)))
        p (by omega) (by rw [List.length_drop]; omega) hcov2
      obtain ⟨hrec1, hrec2⟩ := hrec
      have hoffc : offsetAt (h :: hs) p = hunkDelta h + offsetAt hs p := by
        rw [offsetAt_cons]
        congr 1
        by_cases hemp : h.old_lines.isEmpty
        · rw [if_pos hemp, if_pos (by omega)]
          unfold hunkDelta
          rw [show h.old_lines.length = 0 from by
            rw [List.isEmpty_iff.mp hemp]; rfl]
          simp
        · rw [if_neg hemp, if_pos (by omega)]
      have hlenA : (rest.take (h.old_line - 1 - t)).length =
          h.old_line - 1 - t := by
        rw [List.length_take]
        omega
      constructor
      · rw [hoffc]
        unfold hunkDelta
        omega
      · have hidx : ((p : Int) - 1 - ↑t + offsetAt (h :: hs) p).toNat =
            (rest.take (h.old_line - 1 - t) ++ h.new_lines).length +
              ((p : Int) - 1 - ↑(h.old_line - 1 + h.old_lines.length) +
                offsetAt hs p).toNat := by
          rw [hoffc, List.length_append, hlenA]
          unfold hunkDelta
          omega
        rw [hspec, hidx]
        rw [List.getElem?_append_right (by omega :
          (rest.take (h.old_line - 1 - t) ++ h.new_lines).length ≤
            (rest.take (h.old_line - 1 - t) ++ h.new_lines).length +
              ((p : Int) - 1 - ↑(h.old_line - 1 + h.old_lines.length) +
                offsetAt hs p).toNat)]
        rw [Nat.add_sub_cancel_left]
        rw [hrec2]
        rw [List.getElem?_drop]
        rw [show h.old_line - 1 - t + h.old_lines.length +
            (p - 1 - (h.old_line - 1 + h.old_lines.length)) = p - 1 - t
          from by omega]
/-- **C2, counterexample.**  A single pure-insertion record with
`old_line = 0` satisfies every hypothesis of the claim as stated — sorted
ascending, conflict-free for `validate_hunks`, vacuously matching the base
— and the length formula holds, but the untouched base line 1 is not at
its offset-adjusted position: the insertion lands before the last line
(splice index `-1`), not at the start, so `result[2]` is `x` instead of
`a`. -/
theorem claim_C2_cex :
    sortedByOldLine [⟨0, [], ["x\n"]⟩] ∧
    validate_hunks [⟨0, [], ["x\n"]⟩] = none ∧
    (∀ h ∈ [(⟨0, [], ["x\n"]⟩ : UpdateHunk)], relMatch ["a\n", "b\n"] 0 h) ∧
    apply_hunks ["a\n", "b\n"] [⟨0, [], ["x\n"]⟩] = .ok ["a\n", "x\n", "b\n"] ∧
    ((["a\n", "x\n", "b\n"] : List String).length : Int) =
      (["a\n", "b\n"] : List String).length + hunksDelta [⟨0, [], ["x\n"]⟩] ∧
    ¬ untouchedMapped ["a\n", "b\n"] ["a\n", "x\n", "b\n"] [⟨0, [], ["x\n"]⟩] := by
  refine ⟨?_, rfl, ?_, rfl, by decide, ?_⟩
  · unfold sortedByOldLine
    simp
  · intro h hm hne
    rcases List.mem_singleton.mp hm with rfl
    exact absurd rfl hne
  · intro H
    have h1 := H 1 (by decide) (by decide) (by decide)
    exact absurd h1.2 (by decide)

/-- **C2, amended.**  For a base of length `L` and records that all start
at base line ≥ 1, chained so that each record's range ends strictly before
the next record's `old_line` (`old_line + len(old_lines) ≤` next
`old_line`, which strengthens "sorted + pairwise conflict-free"), and
whose non-empty `old_lines` equal the base content at `old_line`,
`apply_hunks` succeeds; the result's length is
`L + Σ (len(new_lines) - len(old_lines))`, and every base line not covered
by a record's range appears in the result at its offset-adjusted
position. -/
theorem claim_C2_offsets (base : List String) (hunks : List UpdateHunk)
    (hchain : chainValid 0 hunks)
    (hmatch : ∀ h ∈ hunks, relMatch base 0 h) :
    ∃ res, apply_hunks base hunks = .ok res ∧
      (res.length : Int) = base.length + hunksDelta hunks ∧
      untouchedMapped base res hunks := by
  refine ⟨applySpec base 0 hunks, ?_, ?_, ?_⟩
  · unfold apply_hunks
    have hloop := applyLoopSt_spec hunks [] base 0 hchain hmatch
    simp only [List.nil_append, List.length_nil, Nat.cast_zero, sub_zero,
      Nat.cast_ofNat] at hloop
    rw [hloop]
    rfl
  · exact applySpec_length hunks base 0 hchain hmatch
  · intro p hp1 hp2 hcov
    have hu := applySpec_untouched hunks base 0 hchain hmatch p
      (by omega) (by omega) hcov
    have hc1 : (p : Int) - 1 - ((0 : Nat) : Int) = (p : Int) - 1 := by omega
    rw [hc1] at hu
    rw [show p - 1 - 0 = p - 1 from by omega] at hu
    exact hu

/-- **C2, witness.**  Replacement at line 2 (net +1), deletion at line 4,
and an insertion at line 5 on a five-line base. -/
theorem claim_C2_offsets_witness :
    ∃ res, apply_hunks ["l1\n", "l2\n", "l3\n", "l4\n", "l5\n"]
        [⟨2, ["l2\n"], ["a\n", "b\n"]⟩, ⟨4, ["l4\n"], []⟩, ⟨5, [], ["z\n"]⟩] =
        .ok res ∧
      (res.length : Int) =
        ((["l1\n", "l2\n", "l3\n", "l4\n", "l5\n"] : List String).length : Int) +
          hunksDelta [⟨2, ["l2\n"], ["a\n", "b\n"]⟩, ⟨4, ["l4\n"], []⟩,
            ⟨5, [], ["z\n"]⟩] ∧
      untouchedMapped ["l1\n", "l2\n", "l3\n", "l4\n", "l5\n"] res
        [⟨2, ["l2\n"], ["a\n", "b\n"]⟩, ⟨4, ["l4\n"], []⟩, ⟨5, [], ["z\n"]⟩] :=
  claim_C2_offsets ["l1\n", "l2\n", "l3\n", "l4\n", "l5\n"]
    [⟨2, ["l2\n"], ["a\n", "b\n"]⟩, ⟨4, ["l4\n"], []⟩, ⟨5, [], ["z\n"]⟩]
    ⟨by decide, by decide, by decide, trivial⟩
    (by
      intro h hm
      rcases List.mem_cons.mp hm with rfl | hm
      · intro _
        decide
      rcases List.mem_cons.mp hm with rfl | hm
      · intro _
        decide
      rcases List.mem_cons.mp hm with rfl | hm
      · intro hne
        exact absurd rfl hne
      · simp at hm)
